import Mathlib

/-!
Bit-banged I2C master (`fw/common/i2c.c`).

A shallow embedding of the I2C engine of `fw/common/i2c.c`.

* The two memory-mapped registers of one port (`Port + SCL_OFFSET`,
  `Port + SDA_OFFSET`) are the record `Bus`.  The `Port` argument of the C
  functions only selects that pair of registers, so it does not appear.
* A register write stores the value and appends an event to the trace.  A
  register read takes the next reading supplied by the environment (the
  peripheral may pull an open-drain line low, so a reading is not the value
  last written) and appends an event as well.  Registers are `uint8_t`, so
  values are reduced modulo 256.
* `delay_us(5)` is the event `Ev.delay 5`.
* The `ELOG` diagnostics do not touch the bus and are left out.
* `while(i2c_get_scl(Port) == 0);` has no bound in the C code.  The
  model polls at most `fuel` times per wait and yields `none` when the line
  still reads 0 after that.
* A buffer is a `List Nat`; an access beyond its end is undefined in C and
  yields `none` here.
-/

namespace I2c

/-- One observable action on the bus registers. -/
inductive Ev
  | setScl (bit : Nat)
  | setSda (bit : Nat)
  | getScl (v : Nat)
  | getSda (v : Nat)
  | delay (us : Nat)
  deriving DecidableEq, Repr

/-- Registers of one port together with the readings the environment will
supply and the trace of what has happened so far. -/
structure Bus where
  /-- the value the `k`-th read of the SCL register returns -/
  sclIn : Nat → Nat
  /-- the value the `k`-th read of the SDA register returns -/
  sdaIn : Nat → Nat
  /-- number of reads of the SCL register so far -/
  sclReads : Nat
  /-- number of reads of the SDA register so far -/
  sdaReads : Nat
  /-- value last written to the SCL register -/
  scl : Nat
  /-- value last written to the SDA register -/
  sda : Nat
  /-- all register accesses and delays so far, oldest first -/
  trace : List Ev

/-- `i2c_set_scl`: `REG_WR(Port + SCL_OFFSET, bit)`. -/
def i2c_set_scl (bit : Nat) (b : Bus) : Bus :=
  { b with scl := bit % 256, trace := b.trace ++ [Ev.setScl (bit % 256)] }

/-- `i2c_set_sda`: `REG_WR(Port + SDA_OFFSET, bit)`. -/
def i2c_set_sda (bit : Nat) (b : Bus) : Bus :=
  { b with sda := bit % 256, trace := b.trace ++ [Ev.setSda (bit % 256)] }

/-- `i2c_get_scl`: `REG_RD(Port + SCL_OFFSET)`. -/
def i2c_get_scl (b : Bus) : Nat × Bus :=
  (b.sclIn b.sclReads % 256,
    { b with sclReads := b.sclReads + 1,
             trace := b.trace ++ [Ev.getScl (b.sclIn b.sclReads % 256)] })

/-- `i2c_get_sda`: `REG_RD(Port + SDA_OFFSET)`. -/
def i2c_get_sda (b : Bus) : Nat × Bus :=
  (b.sdaIn b.sdaReads % 256,
    { b with sdaReads := b.sdaReads + 1,
             trace := b.trace ++ [Ev.getSda (b.sdaIn b.sdaReads % 256)] })

/-- `I2C_DLY()`: `delay_us(5)`. -/
def I2C_DLY (b : Bus) : Bus :=
  { b with trace := b.trace ++ [Ev.delay 5] }

/-- `i2c_init`. -/
def i2c_init (b : Bus) : Bus :=
  let b := i2c_set_sda 1 b
  let b := i2c_set_scl 1 b
  I2C_DLY b

/-- `i2c_start`. -/
def i2c_start (b : Bus) : Bus :=
  let b := i2c_set_sda 1 b
  let b := I2C_DLY b
  let b := i2c_set_scl 1 b
  let b := I2C_DLY b
  let b := i2c_set_sda 0 b
  let b := I2C_DLY b
  let b := i2c_set_scl 0 b
  I2C_DLY b

/-- `i2c_stop`. -/
def i2c_stop (b : Bus) : Bus :=
  let b := i2c_set_sda 0 b
  let b := I2C_DLY b
  let b := i2c_set_scl 1 b
  let b := I2C_DLY b
  let b := i2c_set_sda 1 b
  I2C_DLY b

/-- The clock-stretch poll `while(i2c_get_scl(Port) == 0);` of `i2c_rx`,
with at most `fuel` reads of SCL. -/
def i2c_rx_wait : Nat → Bus → Option Bus
  | 0, _ => none
  | fuel + 1, b =>
    let r := i2c_get_scl b
    if r.1 = 0 then i2c_rx_wait fuel r.2 else some r.2

/-- The loop `for(x=0; x<8; x++)` of `i2c_rx`; the first argument after
`fuel` is the number of iterations left, `d` is the byte assembled so far
(`char d`, kept modulo 256). -/
def i2c_rx_loop (fuel : Nat) : Nat → Nat → Bus → Option (Nat × Bus)
  | 0, d, b => some (d, b)
  | n + 1, d, b =>
    let d := (d <<< 1) % 256
    let b := i2c_set_scl 1 b
    let b := I2C_DLY b
    match i2c_rx_wait fuel b with
    | none => none
    | some b =>
      let r := i2c_get_sda b
      let d := (d ||| r.1) % 256
      let b := i2c_set_scl 0 r.2
      let b := I2C_DLY b
      i2c_rx_loop fuel n d b

/-- `i2c_rx`: receive one byte, then drive the (N)ACK bit. -/
def i2c_rx (fuel : Nat) (ack : Nat) (b : Bus) : Option (Nat × Bus) :=
  let b := i2c_set_sda 1 b
  match i2c_rx_loop fuel 8 0 b with
  | none => none
  | some (d, b) =>
    let b := if ack ≠ 0 then i2c_set_sda 0 b else i2c_set_sda 1 b
    let b := i2c_set_scl 1 b
    let b := I2C_DLY b
    let b := i2c_set_scl 0 b
    let b := I2C_DLY b
    let b := i2c_set_sda 1 b
    some (d, b)

/-- The loop `for(x=8; x; x--)` of `i2c_tx`; the first argument is `x`, `d`
is the `unsigned char` being shifted out. -/
def i2c_tx_loop : Nat → Nat → Bus → Bus
  | 0, _, b => b
  | x + 1, d, b =>
    let b := i2c_set_sda ((d &&& 0x80) >>> 7) b
    let d := (d <<< 1) % 256
    let b := I2C_DLY b
    let b := i2c_set_scl 1 b
    let b := I2C_DLY b
    let b := i2c_set_scl 0 b
    i2c_tx_loop x d b

/-- `i2c_tx`: send one byte and sample the acknowledge bit; the result is 1
for ACK and 0 for NACK.  The argument is converted to `unsigned char`. -/
def i2c_tx (d : Nat) (b : Bus) : Nat × Bus :=
  let b := i2c_tx_loop 8 (d % 256) b
  let b := i2c_set_sda 1 b
  let b := I2C_DLY b
  let b := I2C_DLY b
  let r := i2c_get_sda b
  let b := i2c_set_scl 1 r.2
  let b := I2C_DLY b
  let b := i2c_set_scl 0 b
  let b := I2C_DLY b
  (if r.1 = 0 then 1 else 0, b)

/-- The loop `for(i=0;i<len;++i)` of `i2c_write_buf` together with the code
after it: `n` iterations are left and `i` is the loop index. -/
def i2c_write_buf_loop (data : List Nat) : Nat → Nat → Bus → Option (Nat × Bus)
  | 0, _, b => some (1, i2c_stop b)
  | n + 1, i, b =>
    match data[i]? with
    | none => none
    | some v =>
      let r := i2c_tx v b
      if r.1 = 0 then some (0, i2c_stop r.2)
      else i2c_write_buf_loop data n (i + 1) r.2

/-- `i2c_write_buf`: result 1 for ACK, 0 for NACK. -/
def i2c_write_buf (ADR : Nat) (data : List Nat) (len : Int) (b : Bus) :
    Option (Nat × Bus) :=
  let b := i2c_start b
  let r := i2c_tx ADR b
  if r.1 = 0 then some (0, i2c_stop r.2)
  else i2c_write_buf_loop data len.toNat 0 r.2

/-- The loop `for(i=0; i < len; ++i)` of `i2c_read_buf` together with the
code after it: `n` iterations are left and `i` is the loop index. -/
def i2c_read_buf_loop (fuel : Nat) (len : Int) :
    Nat → Nat → List Nat → Bus → Option (Nat × List Nat × Bus)
  | 0, _, data, b => some (1, data, i2c_stop b)
  | n + 1, i, data, b =>
    match i2c_rx fuel (if (i : Int) ≠ len - 1 then 1 else 0) b with
    | none => none
    | some (d, b) =>
      if i < data.length then i2c_read_buf_loop fuel len n (i + 1) (data.set i d) b
      else none

/-- `i2c_read_buf`: the result carries the returned `int`, the contents of
the buffer `data` and the bus. -/
def i2c_read_buf (fuel : Nat) (ADR : Nat) (data : List Nat) (len : Int) (b : Bus) :
    Option (Nat × List Nat × Bus) :=
  let b := i2c_start b
  let r := i2c_tx ((ADR % 256) ||| 1) b
  if r.1 = 0 then some (0, data, i2c_stop r.2)
  else i2c_read_buf_loop fuel len len.toNat 0 data r.2

/-- `i2c_write_reg_nr`. -/
def i2c_write_reg_nr (ADR reg_nr : Nat) (b : Bus) : Option (Nat × Bus) :=
  i2c_write_buf ADR [reg_nr % 256] 1 b

/-- `i2c_write_reg`. -/
def i2c_write_reg (ADR reg_nr value : Nat) (b : Bus) : Option (Nat × Bus) :=
  i2c_write_buf ADR [reg_nr % 256, value % 256] 2 b

/-- The loop `for(i=0;i<len;++i)` of `i2c_write_regs` together with the code
after it. -/
def i2c_write_regs_loop (values : List Nat) : Nat → Nat → Bus → Option (Nat × Bus)
  | 0, _, b => some (1, i2c_stop b)
  | n + 1, i, b =>
    match values[i]? with
    | none => none
    | some v =>
      let r := i2c_tx v b
      if r.1 = 0 then some (0, i2c_stop r.2)
      else i2c_write_regs_loop values n (i + 1) r.2

/-- `i2c_write_regs`. -/
def i2c_write_regs (ADR reg_nr : Nat) (values : List Nat) (len : Int) (b : Bus) :
    Option (Nat × Bus) :=
  let b := i2c_start b
  let r := i2c_tx ADR b
  if r.1 = 0 then some (0, i2c_stop r.2)
  else
    let r := i2c_tx reg_nr r.2
    if r.1 = 0 then some (0, i2c_stop r.2)
    else i2c_write_regs_loop values len.toNat 0 r.2

/-- `i2c_read_reg`: `value` is the one-byte destination `*value`. -/
def i2c_read_reg (fuel : Nat) (ADR reg_nr : Nat) (value : List Nat) (b : Bus) :
    Option (Nat × List Nat × Bus) :=
  match i2c_write_buf ADR [reg_nr % 256] 1 b with
  | none => none
  | some (result, b) =>
    if result = 0 then some (0, value, b)
    else
      match i2c_read_buf fuel ADR value 1 b with
      | none => none
      | some (result, value, b) =>
        if result = 0 then some (0, value, b) else some (1, value, b)

/-- `i2c_read_regs`. -/
def i2c_read_regs (fuel : Nat) (ADR reg_nr : Nat) (values : List Nat) (len : Int)
    (b : Bus) : Option (Nat × List Nat × Bus) :=
  match i2c_write_buf ADR [reg_nr % 256] 1 b with
  | none => none
  | some (result, b) =>
    if result = 0 then some (0, values, b)
    else
      match i2c_read_buf fuel ADR values len b with
      | none => none
      | some (result, values, b) =>
        if result = 0 then some (0, values, b) else some (1, values, b)

/-- The public operations of `i2c.h` with their arguments. -/
inductive Call
  | op_init
  | op_write_buf (ADR : Nat) (data : List Nat) (len : Int)
  | op_read_buf (ADR : Nat) (data : List Nat) (len : Int)
  | op_write_reg_nr (ADR reg_nr : Nat)
  | op_write_reg (ADR reg_nr value : Nat)
  | op_write_regs (ADR reg_nr : Nat) (values : List Nat) (len : Int)
  | op_read_reg (ADR reg_nr : Nat) (value : List Nat)
  | op_read_regs (ADR reg_nr : Nat) (values : List Nat) (len : Int)

/-- The bus when the given public operation returns (`none` when it does not
return), whatever the value it returns. -/
def Call.run (fuel : Nat) : Call → Bus → Option Bus
  | .op_init, b => some (i2c_init b)
  | .op_write_buf ADR data len, b => (i2c_write_buf ADR data len b).map (·.2)
  | .op_read_buf ADR data len, b => (i2c_read_buf fuel ADR data len b).map (·.2.2)
  | .op_write_reg_nr ADR reg_nr, b => (i2c_write_reg_nr ADR reg_nr b).map (·.2)
  | .op_write_reg ADR reg_nr value, b => (i2c_write_reg ADR reg_nr value b).map (·.2)
  | .op_write_regs ADR reg_nr values len, b =>
    (i2c_write_regs ADR reg_nr values len b).map (·.2)
  | .op_read_reg ADR reg_nr value, b => (i2c_read_reg fuel ADR reg_nr value b).map (·.2.2)
  | .op_read_regs ADR reg_nr values len, b =>
    (i2c_read_regs fuel ADR reg_nr values len b).map (·.2.2)

/-! ## Observers used in the statements -/

/-- The bus after sending the given bytes one after the other with `i2c_tx`. -/
def tx_seq (bytes : List Nat) (b : Bus) : Bus :=
  bytes.foldl (fun b d => (i2c_tx d b).2) b

/-- The bus after receiving bytes one after the other with `i2c_rx`, one
byte for each `ack` argument in the list (`none` when a reception does not
return). -/
def rx_seq (fuel : Nat) : List Nat → Bus → Option Bus
  | [], b => some b
  | a :: acks, b =>
    match i2c_rx fuel a b with
    | none => none
    | some r => rx_seq fuel acks r.2

/-- The values written to the SDA register, oldest first. -/
def sdaWrites (tr : List Ev) : List Nat :=
  tr.filterMap fun e => match e with
    | Ev.setSda v => some v
    | _ => none

/-- The values written to either line register, oldest first
(`true` marks SCL, `false` marks SDA). -/
def lineWrites (tr : List Ev) : List (Bool × Nat) :=
  tr.filterMap fun e => match e with
    | Ev.setScl v => some (true, v)
    | Ev.setSda v => some (false, v)
    | _ => none

/-- The reads of the line registers in a trace, oldest first. -/
def lineReads (tr : List Ev) : List Ev :=
  tr.filter fun e => match e with
    | Ev.getScl _ => true
    | Ev.getSda _ => true
    | _ => false

/-- The reads of the SCL register in a trace, oldest first. -/
def sclReadEvents (tr : List Ev) : List Ev :=
  tr.filter fun e => match e with
    | Ev.getScl _ => true
    | _ => false

/-- The events appended to the trace between the bus `b` and the later bus `c`. -/
def newEvents (b c : Bus) : List Ev := c.trace.drop b.trace.length

/-- The number made of the given bits, most significant first. -/
def msbFirst (bits : List Nat) : Nat := bits.foldl (fun acc s => 2 * acc + s) 0

/-- The byte carried by the first eight SDA writes of a trace, most
significant bit first. -/
def firstByte (tr : List Ev) : Nat := msbFirst ((sdaWrites tr).take 8)

/-- The number of START conditions in a trace: writes that take SDA from
nonzero to 0 while the value last written to SCL is nonzero.  The first two
arguments are the values last written to SCL and SDA before the trace. -/
def startConditions : Nat → Nat → List Ev → Nat
  | _, _, [] => 0
  | _, sda, Ev.setScl v :: tr => startConditions v sda tr
  | scl, sda, Ev.setSda v :: tr =>
    (if scl ≠ 0 ∧ sda ≠ 0 ∧ v = 0 then 1 else 0) + startConditions scl v tr
  | scl, sda, Ev.getScl _ :: tr => startConditions scl sda tr
  | scl, sda, Ev.getSda _ :: tr => startConditions scl sda tr
  | scl, sda, Ev.delay _ :: tr => startConditions scl sda tr

/-- The values last written to SCL and SDA after a trace, given the values
before it. -/
def linesAfter : Nat → Nat → List Ev → Nat × Nat
  | scl, sda, [] => (scl, sda)
  | _, sda, Ev.setScl v :: tr => linesAfter v sda tr
  | scl, _, Ev.setSda v :: tr => linesAfter scl v tr
  | scl, sda, Ev.getScl _ :: tr => linesAfter scl sda tr
  | scl, sda, Ev.getSda _ :: tr => linesAfter scl sda tr
  | scl, sda, Ev.delay _ :: tr => linesAfter scl sda tr

/-- The events of `i2c_start`. -/
def startEvents : List Ev :=
  [Ev.setSda 1, Ev.delay 5, Ev.setScl 1, Ev.delay 5, Ev.setSda 0, Ev.delay 5,
   Ev.setScl 0, Ev.delay 5]

/-- The events of `i2c_stop`. -/
def stopEvents : List Ev :=
  [Ev.setSda 0, Ev.delay 5, Ev.setScl 1, Ev.delay 5, Ev.setSda 1, Ev.delay 5]

/-- A bus at rest: both lines released, nothing read or written yet. -/
def idleBus (sclIn sdaIn : Nat → Nat) : Bus :=
  { sclIn := sclIn, sdaIn := sdaIn, sclReads := 0, sdaReads := 0, scl := 1, sda := 1,
    trace := [] }

/-- The events of the loop of `i2c_tx`, as a list. -/
def tx_loop_events : Nat → Nat → List Ev
  | 0, _ => []
  | x + 1, d =>
    [Ev.setSda (((d &&& 0x80) >>> 7) % 256), Ev.delay 5, Ev.setScl 1, Ev.delay 5, Ev.setScl 0]
      ++ tx_loop_events x ((d <<< 1) % 256)

/-- The events of `i2c_tx d` when the acknowledge sample reads `v`. -/
def tx_events (d v : Nat) : List Ev :=
  tx_loop_events 8 (d % 256)
    ++ [Ev.setSda 1, Ev.delay 5, Ev.delay 5, Ev.getSda v, Ev.setScl 1, Ev.delay 5,
        Ev.setScl 0, Ev.delay 5]

/-- The byte assembled by `n` iterations of the loop of `i2c_rx` that start
with the value `d` and take their samples from reading number `k` on. -/
def rx_value (sdaIn : Nat → Nat) : Nat → Nat → Nat → Nat
  | 0, _, d => d
  | n + 1, k, d => rx_value sdaIn n (k + 1) ((((d <<< 1) % 256) ||| (sdaIn k % 256)) % 256)

/-- The events of one iteration of the loop of `i2c_rx`, when the SCL polls
read `polls` and the SDA sample reads `s`. -/
def rx_bit_events (polls : List Nat) (s : Nat) : List Ev :=
  [Ev.setScl 1, Ev.delay 5] ++ polls.map Ev.getScl ++ [Ev.getSda s, Ev.setScl 0, Ev.delay 5]

/-- The events of `i2c_rx` with the given `ack` argument, when the iterations
of its loop read the given polls and samples. -/
def rx_events (bits : List (List Nat × Nat)) (ack : Nat) : List Ev :=
  [Ev.setSda 1] ++ (bits.flatMap (fun p => rx_bit_events p.1 p.2)
    ++ [Ev.setSda (if ack ≠ 0 then 0 else 1), Ev.setScl 1, Ev.delay 5, Ev.setScl 0, Ev.delay 5,
        Ev.setSda 1])

/-- The events of a sequence of `i2c_tx` calls, each given by its byte and
its acknowledge sample. -/
def txs_events (txs : List (Nat × Nat)) : List Ev :=
  txs.flatMap fun q => tx_events q.1 q.2

/-- The events of a sequence of `i2c_rx` calls, each given by the readings of
its iterations and its `ack` argument. -/
def rxs_events (rxs : List (List (List Nat × Nat) × Nat)) : List Ev :=
  rxs.flatMap fun q => rx_events q.1 q.2

/-- The events of one bus transaction: `i2c_start`, some `i2c_tx` calls, some
`i2c_rx` calls, `i2c_stop`. -/
def transaction_events (txs : List (Nat × Nat))
    (rxs : List (List (List Nat × Nat) × Nat)) : List Ev :=
  startEvents ++ (txs_events txs ++ (rxs_events rxs ++ stopEvents))

/-- The changes of the value written to SDA that are made while the value
last written to SCL is nonzero, oldest first, each as the pair of the old and
the new value.  The first two arguments are the values last written to SCL
and SDA before the trace. -/
def sdaChangesSclHigh : Nat → Nat → List Ev → List (Nat × Nat)
  | _, _, [] => []
  | _, sda, Ev.setScl v :: tr => sdaChangesSclHigh v sda tr
  | scl, sda, Ev.setSda v :: tr =>
    (if scl ≠ 0 ∧ v ≠ sda then [(sda, v)] else []) ++ sdaChangesSclHigh scl v tr
  | scl, sda, Ev.getScl _ :: tr => sdaChangesSclHigh scl sda tr
  | scl, sda, Ev.getSda _ :: tr => sdaChangesSclHigh scl sda tr
  | scl, sda, Ev.delay _ :: tr => sdaChangesSclHigh scl sda tr

/-- The number of STOP conditions in a trace: writes that take SDA from 0 to
nonzero while the value last written to SCL is nonzero. -/
def stopConditions : Nat → Nat → List Ev → Nat
  | _, _, [] => 0
  | _, sda, Ev.setScl v :: tr => stopConditions v sda tr
  | scl, sda, Ev.setSda v :: tr =>
    (if scl ≠ 0 ∧ sda = 0 ∧ v ≠ 0 then 1 else 0) + stopConditions scl v tr
  | scl, sda, Ev.getScl _ :: tr => stopConditions scl sda tr
  | scl, sda, Ev.getSda _ :: tr => stopConditions scl sda tr
  | scl, sda, Ev.delay _ :: tr => stopConditions scl sda tr

/-- Whether every write to SCL in the trace comes after a delay of at least
5 microseconds since the previous write to SCL.  The first argument tells
whether such a delay has passed since the last write to SCL before the
trace (`true` when there was none). -/
def sclSpaced : Bool → List Ev → Bool
  | _, [] => true
  | ok, Ev.setScl _ :: tr => ok && sclSpaced false tr
  | ok, Ev.delay us :: tr => sclSpaced (ok || decide (5 ≤ us)) tr
  | ok, Ev.setSda _ :: tr => sclSpaced ok tr
  | ok, Ev.getScl _ :: tr => sclSpaced ok tr
  | ok, Ev.getSda _ :: tr => sclSpaced ok tr

/-- Whether a delay of at least 5 microseconds has passed since the last
write to SCL, at the end of the trace. -/
def delayedAfter : Bool → List Ev → Bool
  | ok, [] => ok
  | _, Ev.setScl _ :: tr => delayedAfter false tr
  | ok, Ev.delay us :: tr => delayedAfter (ok || decide (5 ≤ us)) tr
  | ok, Ev.setSda _ :: tr => delayedAfter ok tr
  | ok, Ev.getScl _ :: tr => delayedAfter ok tr
  | ok, Ev.getSda _ :: tr => delayedAfter ok tr

/-- Whether the event is a write to one of the line registers. -/
def isLineWrite : Ev → Bool
  | Ev.setScl _ => true
  | Ev.setSda _ => true
  | _ => false

/-- Whether some line write in the trace is immediately followed by another
line write, with no delay (or anything else) in between. -/
def adjacentWrites : List Ev → Bool
  | [] => false
  | [_] => false
  | e1 :: e2 :: tr => (isLineWrite e1 && isLineWrite e2) || adjacentWrites (e2 :: tr)

/-! ## Basic facts about the line primitives -/

theorem i2c_start_trace (b : Bus) : (i2c_start b).trace = b.trace ++ startEvents := by
  simp [i2c_start, i2c_set_sda, i2c_set_scl, I2C_DLY, startEvents]

theorem i2c_start_inputs (b : Bus) :
    (i2c_start b).sdaIn = b.sdaIn ∧ (i2c_start b).sdaReads = b.sdaReads ∧
    (i2c_start b).sclIn = b.sclIn ∧ (i2c_start b).sclReads = b.sclReads := by
  simp [i2c_start, i2c_set_sda, i2c_set_scl, I2C_DLY]

theorem i2c_stop_inputs (b : Bus) :
    (i2c_stop b).sdaIn = b.sdaIn ∧ (i2c_stop b).sdaReads = b.sdaReads ∧
    (i2c_stop b).sclIn = b.sclIn ∧ (i2c_stop b).sclReads = b.sclReads := by
  simp [i2c_stop, i2c_set_sda, i2c_set_scl, I2C_DLY]

theorem i2c_stop_trace (b : Bus) : (i2c_stop b).trace = b.trace ++ stopEvents := by
  simp [i2c_stop, i2c_set_sda, i2c_set_scl, I2C_DLY, stopEvents]

theorem i2c_stop_lines (b : Bus) : (i2c_stop b).scl = 1 ∧ (i2c_stop b).sda = 1 := by
  simp [i2c_stop, i2c_set_sda, i2c_set_scl, I2C_DLY]

theorem i2c_tx_loop_inputs (x d : Nat) (b : Bus) :
    (i2c_tx_loop x d b).sdaIn = b.sdaIn ∧ (i2c_tx_loop x d b).sdaReads = b.sdaReads ∧
    (i2c_tx_loop x d b).sclIn = b.sclIn ∧ (i2c_tx_loop x d b).sclReads = b.sclReads := by
  induction x generalizing d b with
  | zero => simp [i2c_tx_loop]
  | succ x ih =>
    simp only [i2c_tx_loop]
    rw [(ih _ _).1, (ih _ _).2.1, (ih _ _).2.2.1, (ih _ _).2.2.2]
    simp [i2c_set_sda, i2c_set_scl, I2C_DLY]

theorem i2c_tx_result (d : Nat) (b : Bus) :
    (i2c_tx d b).1 = if b.sdaIn b.sdaReads % 256 = 0 then 1 else 0 := by
  simp [i2c_tx, i2c_get_sda, i2c_set_sda, I2C_DLY, (i2c_tx_loop_inputs _ _ _).1,
    (i2c_tx_loop_inputs _ _ _).2.1]

theorem i2c_tx_inputs (d : Nat) (b : Bus) :
    (i2c_tx d b).2.sdaIn = b.sdaIn ∧ (i2c_tx d b).2.sdaReads = b.sdaReads + 1 ∧
    (i2c_tx d b).2.sclIn = b.sclIn ∧ (i2c_tx d b).2.sclReads = b.sclReads := by
  simp [i2c_tx, i2c_get_sda, i2c_set_sda, i2c_set_scl, I2C_DLY, (i2c_tx_loop_inputs _ _ _).1,
    (i2c_tx_loop_inputs _ _ _).2.1, (i2c_tx_loop_inputs _ _ _).2.2.1,
    (i2c_tx_loop_inputs _ _ _).2.2.2]

theorem tx_seq_cons (d : Nat) (ds : List Nat) (b : Bus) :
    tx_seq (d :: ds) b = tx_seq ds (i2c_tx d b).2 := by
  unfold tx_seq
  rw [List.foldl_cons]

theorem tx_seq_append (xs ys : List Nat) (b : Bus) :
    tx_seq (xs ++ ys) b = tx_seq ys (tx_seq xs b) := by
  simp [tx_seq, List.foldl_append]

theorem tx_seq_inputs (ds : List Nat) (b : Bus) :
    (tx_seq ds b).sdaIn = b.sdaIn ∧ (tx_seq ds b).sdaReads = b.sdaReads + ds.length ∧
    (tx_seq ds b).sclIn = b.sclIn ∧ (tx_seq ds b).sclReads = b.sclReads := by
  induction ds generalizing b with
  | nil => simp [tx_seq]
  | cons d ds ih =>
    rw [tx_seq_cons]
    obtain ⟨h1, h2, h3, h4⟩ := ih (i2c_tx d b).2
    obtain ⟨g1, g2, g3, g4⟩ := i2c_tx_inputs d b
    rw [h1, h2, h3, h4, g1, g2, g3, g4]
    simp only [List.length_cons]
    refine ⟨trivial, by omega, trivial, trivial⟩

/-! ## The write loop -/

theorem i2c_write_buf_loop_ack (data : List Nat) (n i : Nat) (b : Bus)
    (hlen : i + n ≤ data.length)
    (hack : ∀ k, k < n → b.sdaIn (b.sdaReads + k) % 256 = 0) :
    i2c_write_buf_loop data n i b = some (1, i2c_stop (tx_seq ((data.drop i).take n) b)) := by
  induction n generalizing i b with
  | zero => simp [i2c_write_buf_loop, tx_seq]
  | succ n ih =>
    have hi : i < data.length := by omega
    have h0 : b.sdaIn b.sdaReads % 256 = 0 := by simpa using hack 0 (by omega)
    have hr : (i2c_tx data[i] b).1 = 1 := by rw [i2c_tx_result]; simp [h0]
    have hrec := ih (i + 1) (i2c_tx data[i] b).2 (by omega) (by
      intro k hk
      rw [(i2c_tx_inputs _ _).1, (i2c_tx_inputs _ _).2.1]
      have := hack (k + 1) (by omega)
      rwa [show b.sdaReads + 1 + k = b.sdaReads + (k + 1) by omega])
    rw [i2c_write_buf_loop, List.getElem?_eq_getElem hi]
    simp only [hr, one_ne_zero, if_false]
    rw [hrec, List.drop_eq_getElem_cons hi, List.take_succ_cons, tx_seq_cons]

theorem i2c_write_buf_loop_nack (data : List Nat) (n i k : Nat) (b : Bus)
    (hk : k < n) (hlen : i + k < data.length)
    (hack : ∀ j, j < k → b.sdaIn (b.sdaReads + j) % 256 = 0)
    (hnack : b.sdaIn (b.sdaReads + k) % 256 ≠ 0) :
    i2c_write_buf_loop data n i b
      = some (0, i2c_stop (tx_seq ((data.drop i).take (k + 1)) b)) := by
  induction n generalizing i k b with
  | zero => omega
  | succ n ih =>
    have hi : i < data.length := by omega
    rw [i2c_write_buf_loop, List.getElem?_eq_getElem hi]
    rw [List.drop_eq_getElem_cons hi, List.take_succ_cons, tx_seq_cons]
    cases k with
    | zero =>
      have hr : (i2c_tx data[i] b).1 = 0 := by
        rw [i2c_tx_result]; simpa using hnack
      simp [hr, tx_seq]
    | succ k =>
      have h0 : b.sdaIn b.sdaReads % 256 = 0 := by simpa using hack 0 (by omega)
      have hr : (i2c_tx data[i] b).1 = 1 := by rw [i2c_tx_result]; simp [h0]
      simp only [hr, one_ne_zero, if_false]
      rw [ih (i + 1) k (i2c_tx data[i] b).2 (by omega) (by omega) (by
        intro j hj
        rw [(i2c_tx_inputs _ _).1, (i2c_tx_inputs _ _).2.1]
        have := hack (j + 1) (by omega)
        rwa [show b.sdaReads + 1 + j = b.sdaReads + (j + 1) by omega]) (by
        rw [(i2c_tx_inputs _ _).1, (i2c_tx_inputs _ _).2.1]
        rwa [show b.sdaReads + 1 + k = b.sdaReads + (k + 1) by omega])]

/-! ## Traces of the byte transmitter -/

theorem i2c_tx_loop_trace (x d : Nat) (b : Bus) :
    (i2c_tx_loop x d b).trace = b.trace ++ tx_loop_events x d := by
  induction x generalizing d b with
  | zero => simp [i2c_tx_loop, tx_loop_events]
  | succ x ih =>
    simp only [i2c_tx_loop, tx_loop_events]
    rw [ih]
    simp [i2c_set_sda, i2c_set_scl, I2C_DLY]

theorem i2c_tx_trace (d : Nat) (b : Bus) :
    (i2c_tx d b).2.trace = b.trace ++ tx_events d (b.sdaIn b.sdaReads % 256) := by
  simp [i2c_tx, tx_events, i2c_get_sda, i2c_set_sda, i2c_set_scl, I2C_DLY, i2c_tx_loop_trace,
    (i2c_tx_loop_inputs _ _ _).1, (i2c_tx_loop_inputs _ _ _).2.1]

theorem newEvents_append (b c : Bus) (evs : List Ev) (h : c.trace = b.trace ++ evs) :
    newEvents b c = evs := by
  simp [newEvents, h]

theorem lineWrites_append (xs ys : List Ev) :
    lineWrites (xs ++ ys) = lineWrites xs ++ lineWrites ys := by
  simp [lineWrites, List.filterMap_append]

theorem sdaWrites_append (xs ys : List Ev) :
    sdaWrites (xs ++ ys) = sdaWrites xs ++ sdaWrites ys := by
  simp [sdaWrites, List.filterMap_append]

theorem lineWrites_stop (b : Bus) :
    lineWrites (i2c_stop b).trace
      = lineWrites b.trace ++ [(false, 0), (true, 1), (false, 1)] := by
  rw [i2c_stop_trace, lineWrites_append]
  rfl

/-! ## Buffer write -/

/-- **C1** (ACK propagation).  When the SDA reading in the acknowledge slot of
every transmitted byte is 0, `i2c_write_buf` returns 1 and what it did on the
bus is: `i2c_start`, then `i2c_tx` of the address byte followed by
`data[0]`, ..., `data[len-1]` in that order (`len + 1` bytes), then
`i2c_stop`. -/
theorem i2c_write_buf_all_ack (ADR : Nat) (data : List Nat) (len : Int) (b : Bus)
    (h0 : 0 ≤ len) (hlen : len ≤ data.length)
    (hack : ∀ k : Nat, (k : Int) ≤ len → b.sdaIn (b.sdaReads + k) % 256 = 0) :
    i2c_write_buf ADR data len b
        = some (1, i2c_stop (tx_seq (ADR :: data.take len.toNat) (i2c_start b))) ∧
      (ADR :: data.take len.toNat).length = len.toNat + 1 := by
  have hn : len.toNat ≤ data.length := by omega
  have ha : (i2c_tx ADR (i2c_start b)).1 = 1 := by
    rw [i2c_tx_result]
    have := hack 0 (by simpa using h0)
    simp only [Nat.add_zero] at this
    simp [(i2c_start_inputs b).1, (i2c_start_inputs b).2.1, this]
  refine ⟨?_, by simp [List.length_take, hn]⟩
  unfold i2c_write_buf
  simp only [ha, one_ne_zero, if_false]
  rw [i2c_write_buf_loop_ack data len.toNat 0 _ (by omega) (by
    intro k hk
    rw [(i2c_tx_inputs _ _).1, (i2c_tx_inputs _ _).2.1]
    have := hack (k + 1) (by omega)
    rw [(i2c_start_inputs b).1, (i2c_start_inputs b).2.1]
    rwa [show b.sdaReads + 1 + k = b.sdaReads + (k + 1) by omega])]
  rw [tx_seq_cons, List.drop_zero]

/-- Instance of C1: address `0xA0`, payload `[1, 2, 3]`, every byte
acknowledged. -/
theorem i2c_write_buf_all_ack_witness :
    i2c_write_buf 0xA0 [1, 2, 3] 3 (idleBus (fun _ => 1) (fun _ => 0))
        = some (1, i2c_stop (tx_seq [0xA0, 1, 2, 3]
            (i2c_start (idleBus (fun _ => 1) (fun _ => 0))))) ∧
      [0xA0, 1, 2, 3].length = 3 + 1 :=
  i2c_write_buf_all_ack 0xA0 [1, 2, 3] 3 (idleBus (fun _ => 1) (fun _ => 0))
    (by decide) (by decide) (by intro k _; rfl)

/-- **C2** (NACK abort).  When the first `k` transmitted bytes (the address
byte, then `data[0..k-1)`) are acknowledged and the next one is not,
`i2c_write_buf` returns 0; what it did on the bus is `i2c_start`, `i2c_tx` of
exactly the first `k + 1` bytes of `ADR :: data`, then `i2c_stop`; SDA was
sampled `k + 1` times; and its last three line writes are SDA=0, SCL=1,
SDA=1. -/
theorem i2c_write_buf_nack (ADR : Nat) (data : List Nat) (len : Int) (b : Bus) (k : Nat)
    (hk : (k : Int) ≤ len) (hkd : k ≤ data.length)
    (hack : ∀ j, j < k → b.sdaIn (b.sdaReads + j) % 256 = 0)
    (hnack : b.sdaIn (b.sdaReads + k) % 256 ≠ 0) :
    ∃ c, i2c_write_buf ADR data len b = some (0, c) ∧
      c = i2c_stop (tx_seq ((ADR :: data).take (k + 1)) (i2c_start b)) ∧
      ((ADR :: data).take (k + 1)).length = k + 1 ∧
      c.sdaReads = b.sdaReads + (k + 1) ∧
      lineWrites c.trace
        = lineWrites (tx_seq ((ADR :: data).take (k + 1)) (i2c_start b)).trace
            ++ [(false, 0), (true, 1), (false, 1)] := by
  refine ⟨_, ?_, rfl, by simp [List.length_take]; omega, ?_, lineWrites_stop _⟩
  · unfold i2c_write_buf
    rw [List.take_succ_cons, tx_seq_cons]
    cases k with
    | zero =>
      have ha : (i2c_tx ADR (i2c_start b)).1 = 0 := by
        rw [i2c_tx_result]
        simpa [(i2c_start_inputs b).1, (i2c_start_inputs b).2.1] using hnack
      simp [ha, tx_seq]
    | succ k =>
      have ha : (i2c_tx ADR (i2c_start b)).1 = 1 := by
        rw [i2c_tx_result]
        have := hack 0 (by omega)
        simp only [Nat.add_zero] at this
        simp [(i2c_start_inputs b).1, (i2c_start_inputs b).2.1, this]
      simp only [ha, one_ne_zero, if_false]
      rw [i2c_write_buf_loop_nack data len.toNat 0 k _ (by omega) (by omega) (by
        intro j hj
        rw [(i2c_tx_inputs _ _).1, (i2c_tx_inputs _ _).2.1]
        have := hack (j + 1) (by omega)
        rw [(i2c_start_inputs b).1, (i2c_start_inputs b).2.1]
        rwa [show b.sdaReads + 1 + j = b.sdaReads + (j + 1) by omega]) (by
        rw [(i2c_tx_inputs _ _).1, (i2c_tx_inputs _ _).2.1]
        rw [(i2c_start_inputs b).1, (i2c_start_inputs b).2.1]
        rwa [show b.sdaReads + 1 + k = b.sdaReads + (k + 1) by omega])]
      rw [List.drop_zero]
  · rw [(i2c_stop_inputs _).2.1, (tx_seq_inputs _ _).2.1, (i2c_start_inputs b).2.1]
    simp only [List.length_take, List.length_cons]
    omega

/-- Instance of C2: the second data byte is not acknowledged, so only the
address, `b0` and `b1` are sent. -/
theorem i2c_write_buf_nack_witness :
    ∃ c, i2c_write_buf 0xA0 [1, 2, 3] 3
          (idleBus (fun _ => 1) (fun k => if k = 2 then 1 else 0)) = some (0, c) ∧
      c = i2c_stop (tx_seq ((0xA0 :: [1, 2, 3]).take (2 + 1))
            (i2c_start (idleBus (fun _ => 1) (fun k => if k = 2 then 1 else 0)))) ∧
      ((0xA0 :: [1, 2, 3]).take (2 + 1)).length = 2 + 1 ∧
      c.sdaReads = (idleBus (fun _ => 1) (fun k => if k = 2 then 1 else 0)).sdaReads + (2 + 1) ∧
      lineWrites c.trace
        = lineWrites (tx_seq ((0xA0 :: [1, 2, 3]).take (2 + 1))
            (i2c_start (idleBus (fun _ => 1) (fun k => if k = 2 then 1 else 0)))).trace
            ++ [(false, 0), (true, 1), (false, 1)] :=
  i2c_write_buf_nack 0xA0 [1, 2, 3] 3
    (idleBus (fun _ => 1) (fun k => if k = 2 then 1 else 0)) 2
    (by decide) (by decide)
    (by intro j hj; interval_cases j <;> decide)
    (by decide)

/-! ## Idle bus on return -/

theorem i2c_write_buf_loop_stopped (data : List Nat) (n i : Nat) (b : Bus) (r : Nat × Bus)
    (h : i2c_write_buf_loop data n i b = some r) : ∃ p, r.2 = i2c_stop p := by
  induction n generalizing i b with
  | zero =>
    simp only [i2c_write_buf_loop, Option.some.injEq] at h
    exact ⟨b, by rw [← h]⟩
  | succ n ih =>
    rw [i2c_write_buf_loop] at h
    split at h
    · exact absurd h (by simp)
    · rename_i v _
      by_cases hr : (i2c_tx v b).1 = 0
      · simp only [hr, if_true, Option.some.injEq] at h
        exact ⟨_, by rw [← h]⟩
      · simp only [hr, if_false] at h
        exact ih _ _ h

theorem i2c_write_buf_stopped (ADR : Nat) (data : List Nat) (len : Int) (b : Bus)
    (r : Nat × Bus) (h : i2c_write_buf ADR data len b = some r) : ∃ p, r.2 = i2c_stop p := by
  unfold i2c_write_buf at h
  by_cases hr : (i2c_tx ADR (i2c_start b)).1 = 0
  · simp only [hr, if_true, Option.some.injEq] at h
    exact ⟨_, by rw [← h]⟩
  · simp only [hr, if_false] at h
    exact i2c_write_buf_loop_stopped _ _ _ _ _ h

theorem i2c_write_regs_loop_stopped (values : List Nat) (n i : Nat) (b : Bus) (r : Nat × Bus)
    (h : i2c_write_regs_loop values n i b = some r) : ∃ p, r.2 = i2c_stop p := by
  induction n generalizing i b with
  | zero =>
    simp only [i2c_write_regs_loop, Option.some.injEq] at h
    exact ⟨b, by rw [← h]⟩
  | succ n ih =>
    rw [i2c_write_regs_loop] at h
    split at h
    · exact absurd h (by simp)
    · rename_i v _
      by_cases hr : (i2c_tx v b).1 = 0
      · simp only [hr, if_true, Option.some.injEq] at h
        exact ⟨_, by rw [← h]⟩
      · simp only [hr, if_false] at h
        exact ih _ _ h

theorem i2c_write_regs_stopped (ADR reg_nr : Nat) (values : List Nat) (len : Int) (b : Bus)
    (r : Nat × Bus) (h : i2c_write_regs ADR reg_nr values len b = some r) :
    ∃ p, r.2 = i2c_stop p := by
  unfold i2c_write_regs at h
  by_cases hr : (i2c_tx ADR (i2c_start b)).1 = 0
  · simp only [hr, if_true, Option.some.injEq] at h
    exact ⟨_, by rw [← h]⟩
  · simp only [hr, if_false] at h
    by_cases hq : (i2c_tx reg_nr (i2c_tx ADR (i2c_start b)).2).1 = 0
    · simp only [hq, if_true, Option.some.injEq] at h
      exact ⟨_, by rw [← h]⟩
    · simp only [hq, if_false] at h
      exact i2c_write_regs_loop_stopped _ _ _ _ _ h

theorem i2c_read_buf_loop_stopped (fuel : Nat) (len : Int) (n i : Nat) (data : List Nat)
    (b : Bus) (r : Nat × List Nat × Bus)
    (h : i2c_read_buf_loop fuel len n i data b = some r) : ∃ p, r.2.2 = i2c_stop p := by
  induction n generalizing i data b with
  | zero =>
    simp only [i2c_read_buf_loop, Option.some.injEq] at h
    exact ⟨b, by rw [← h]⟩
  | succ n ih =>
    rw [i2c_read_buf_loop] at h
    split at h
    · exact absurd h (by simp)
    · split at h
      · exact ih _ _ _ h
      · exact absurd h (by simp)

theorem i2c_read_buf_stopped (fuel ADR : Nat) (data : List Nat) (len : Int) (b : Bus)
    (r : Nat × List Nat × Bus) (h : i2c_read_buf fuel ADR data len b = some r) :
    ∃ p, r.2.2 = i2c_stop p := by
  unfold i2c_read_buf at h
  by_cases hr : (i2c_tx ((ADR % 256) ||| 1) (i2c_start b)).1 = 0
  · simp only [hr, if_true, Option.some.injEq] at h
    exact ⟨_, by rw [← h]⟩
  · simp only [hr, if_false] at h
    exact i2c_read_buf_loop_stopped _ _ _ _ _ _ _ h

theorem i2c_read_regs_stopped (fuel ADR reg_nr : Nat) (values : List Nat) (len : Int)
    (b : Bus) (r : Nat × List Nat × Bus)
    (h : i2c_read_regs fuel ADR reg_nr values len b = some r) : ∃ p, r.2.2 = i2c_stop p := by
  unfold i2c_read_regs at h
  split at h
  · exact absurd h (by simp)
  · rename_i result c hw
    by_cases h0 : result = 0
    · simp only [h0, if_true, Option.some.injEq] at h
      obtain ⟨p, hp⟩ := i2c_write_buf_stopped _ _ _ _ _ hw
      exact ⟨p, by rw [← h]; exact hp⟩
    · simp only [h0, if_false] at h
      split at h
      · exact absurd h (by simp)
      · rename_i res2 vals c2 hread
        obtain ⟨p, hp⟩ := i2c_read_buf_stopped _ _ _ _ _ _ hread
        refine ⟨p, ?_⟩
        split at h <;> (simp only [Option.some.injEq] at h; rw [← h]; exact hp)

theorem i2c_read_reg_stopped (fuel ADR reg_nr : Nat) (value : List Nat)
    (b : Bus) (r : Nat × List Nat × Bus)
    (h : i2c_read_reg fuel ADR reg_nr value b = some r) : ∃ p, r.2.2 = i2c_stop p := by
  unfold i2c_read_reg at h
  split at h
  · exact absurd h (by simp)
  · rename_i result c hw
    by_cases h0 : result = 0
    · simp only [h0, if_true, Option.some.injEq] at h
      obtain ⟨p, hp⟩ := i2c_write_buf_stopped _ _ _ _ _ hw
      exact ⟨p, by rw [← h]; exact hp⟩
    · simp only [h0, if_false] at h
      split at h
      · exact absurd h (by simp)
      · rename_i res2 vals c2 hread
        obtain ⟨p, hp⟩ := i2c_read_buf_stopped _ _ _ _ _ _ hread
        refine ⟨p, ?_⟩
        split at h <;> (simp only [Option.some.injEq] at h; rw [← h]; exact hp)

/-- **C3** (idle invariant).  Whenever one of the public operations `i2c_init`,
`i2c_write_buf`, `i2c_read_buf`, `i2c_write_reg_nr`, `i2c_write_reg`,
`i2c_write_regs`, `i2c_read_reg`, `i2c_read_regs` returns, for any arguments,
any initial bus, any line readings and any returned value, the value last
written to SCL is 1 and the value last written to SDA is 1. -/
theorem idle_on_return (fuel : Nat) (op : Call) (b c : Bus) (h : op.run fuel b = some c) :
    c.scl = 1 ∧ c.sda = 1 := by
  have key : ∀ p, c = i2c_stop p → c.scl = 1 ∧ c.sda = 1 := by
    intro p hp
    rw [hp]
    exact i2c_stop_lines p
  cases op with
  | op_init =>
    simp only [Call.run, Option.some.injEq] at h
    rw [← h]
    simp [i2c_init, i2c_set_sda, i2c_set_scl, I2C_DLY]
  | op_write_buf ADR data len =>
    simp only [Call.run, Option.map_eq_some'] at h
    obtain ⟨r, hr, rfl⟩ := h
    obtain ⟨p, hp⟩ := i2c_write_buf_stopped _ _ _ _ _ hr
    exact key p hp
  | op_read_buf ADR data len =>
    simp only [Call.run, Option.map_eq_some'] at h
    obtain ⟨r, hr, rfl⟩ := h
    obtain ⟨p, hp⟩ := i2c_read_buf_stopped _ _ _ _ _ _ hr
    exact key p hp
  | op_write_reg_nr ADR reg_nr =>
    simp only [Call.run, Option.map_eq_some', i2c_write_reg_nr] at h
    obtain ⟨r, hr, rfl⟩ := h
    obtain ⟨p, hp⟩ := i2c_write_buf_stopped _ _ _ _ _ hr
    exact key p hp
  | op_write_reg ADR reg_nr value =>
    simp only [Call.run, Option.map_eq_some', i2c_write_reg] at h
    obtain ⟨r, hr, rfl⟩ := h
    obtain ⟨p, hp⟩ := i2c_write_buf_stopped _ _ _ _ _ hr
    exact key p hp
  | op_write_regs ADR reg_nr values len =>
    simp only [Call.run, Option.map_eq_some'] at h
    obtain ⟨r, hr, rfl⟩ := h
    obtain ⟨p, hp⟩ := i2c_write_regs_stopped _ _ _ _ _ _ hr
    exact key p hp
  | op_read_reg ADR reg_nr value =>
    simp only [Call.run, Option.map_eq_some'] at h
    obtain ⟨r, hr, rfl⟩ := h
    obtain ⟨p, hp⟩ := i2c_read_reg_stopped _ _ _ _ _ _ hr
    exact key p hp
  | op_read_regs ADR reg_nr values len =>
    simp only [Call.run, Option.map_eq_some'] at h
    obtain ⟨r, hr, rfl⟩ := h
    obtain ⟨p, hp⟩ := i2c_read_regs_stopped _ _ _ _ _ _ _ hr
    exact key p hp

/-- Instance of C3: a register read on a bus whose lines were both low. -/
theorem idle_on_return_witness :
    ∃ c, (Call.op_read_reg 0xA0 5 [0]).run 1
        { sclIn := fun _ => 1, sdaIn := fun _ => 0, sclReads := 0, sdaReads := 0,
          scl := 0, sda := 0, trace := [] } = some c ∧ c.scl = 1 ∧ c.sda = 1 :=
  ⟨Option.get _ (by decide), (Option.some_get _).symm,
    idle_on_return _ _ _ _ (Option.some_get _).symm⟩

/-! ## The byte receiver -/

theorem i2c_rx_wait_spec (fuel : Nat) (b c : Bus) (h : i2c_rx_wait fuel b = some c) :
    c.sdaIn = b.sdaIn ∧ c.sdaReads = b.sdaReads ∧ c.sclIn = b.sclIn ∧
    c.scl = b.scl ∧ c.sda = b.sda ∧ lineWrites c.trace = lineWrites b.trace := by
  induction fuel generalizing b with
  | zero => simp [i2c_rx_wait] at h
  | succ fuel ih =>
    rw [i2c_rx_wait] at h
    by_cases hv : (i2c_get_scl b).1 = 0
    · simp only [hv, if_true] at h
      obtain ⟨h1, h2, h3, h4, h5, h6⟩ := ih _ h
      rw [h1, h2, h3, h4, h5, h6]
      simp [i2c_get_scl, lineWrites, List.filterMap_append]
    · simp only [hv, if_false, Option.some.injEq] at h
      rw [← h]
      simp [i2c_get_scl, lineWrites, List.filterMap_append]

theorem i2c_rx_loop_spec (fuel n d : Nat) (b : Bus) (r : Nat × Bus)
    (h : i2c_rx_loop fuel n d b = some r) :
    r.1 = rx_value b.sdaIn n b.sdaReads d ∧
    r.2.sdaIn = b.sdaIn ∧ r.2.sdaReads = b.sdaReads + n ∧ r.2.sclIn = b.sclIn ∧
    sdaWrites r.2.trace = sdaWrites b.trace := by
  induction n generalizing d b with
  | zero =>
    simp only [i2c_rx_loop, Option.some.injEq] at h
    rw [← h]
    simp [rx_value]
  | succ n ih =>
    rw [i2c_rx_loop] at h
    simp only at h
    split at h
    · exact absurd h (by simp)
    · rename_i c hc
      obtain ⟨w1, w2, w3, -, -, w6⟩ := i2c_rx_wait_spec _ _ _ hc
      obtain ⟨g1, g2, g3, g4, g5⟩ := ih _ _ h
      have e1 : c.sdaIn = b.sdaIn := by
        rw [w1]; simp [i2c_set_scl, I2C_DLY]
      have e2 : c.sdaReads = b.sdaReads := by
        rw [w2]; simp [i2c_set_scl, I2C_DLY]
      have e3 : c.sclIn = b.sclIn := by
        rw [w3]; simp [i2c_set_scl, I2C_DLY]
      have e6 : sdaWrites c.trace = sdaWrites b.trace := by
        have : sdaWrites c.trace = (lineWrites c.trace).filterMap
            (fun p => if p.1 then none else some p.2) := by
          simp only [sdaWrites, lineWrites, List.filterMap_filterMap]
          congr 1
          funext e
          cases e <;> simp
        rw [this, w6]
        simp only [sdaWrites, lineWrites, List.filterMap_filterMap]
        simp [i2c_set_scl, I2C_DLY, List.filterMap_append]
        congr 1
        funext e
        cases e <;> simp
      refine ⟨?_, ?_, ?_, ?_, ?_⟩
      · rw [g1]
        simp [i2c_get_sda, i2c_set_scl, I2C_DLY, e1, e2, rx_value]
      · rw [g2]; simp [i2c_get_sda, i2c_set_scl, I2C_DLY, e1]
      · rw [g3]; simp [i2c_get_sda, i2c_set_scl, I2C_DLY, e2]; omega
      · rw [g4]; simp [i2c_get_sda, i2c_set_scl, I2C_DLY, e3]
      · rw [g5]
        simp [i2c_get_sda, i2c_set_scl, I2C_DLY, sdaWrites, List.filterMap_append]
        exact e6

theorem i2c_rx_spec (fuel ack : Nat) (b : Bus) (r : Nat × Bus)
    (h : i2c_rx fuel ack b = some r) :
    r.1 = rx_value b.sdaIn 8 b.sdaReads 0 ∧
    r.2.sdaIn = b.sdaIn ∧ r.2.sdaReads = b.sdaReads + 8 ∧ r.2.sclIn = b.sclIn ∧
    sdaWrites r.2.trace = sdaWrites b.trace ++ [1, if ack ≠ 0 then 0 else 1, 1] := by
  unfold i2c_rx at h
  simp only at h
  split at h
  · exact absurd h (by simp)
  · rename_i d c hc
    obtain ⟨g1, g2, g3, g4, g5⟩ := i2c_rx_loop_spec _ _ _ _ _ hc
    simp only [Option.some.injEq] at h
    rw [← h]
    simp only at g1 g2 g3 g4 g5
    have t1 : (i2c_set_sda 1 b).sdaIn = b.sdaIn ∧ (i2c_set_sda 1 b).sdaReads = b.sdaReads ∧
        (i2c_set_sda 1 b).sclIn = b.sclIn ∧
        sdaWrites (i2c_set_sda 1 b).trace = sdaWrites b.trace ++ [1] := by
      simp [i2c_set_sda, sdaWrites, List.filterMap_append]
    rw [t1.1, t1.2.1] at g1
    rw [t1.1] at g2
    rw [t1.2.1] at g3
    rw [t1.2.2.1] at g4
    rw [t1.2.2.2] at g5
    by_cases ha : ack = 0
    · simp only [ha, ne_eq, not_true_eq_false, if_false]
      refine ⟨g1, ?_, ?_, ?_, ?_⟩
      · rw [← g2]; simp [i2c_set_sda, i2c_set_scl, I2C_DLY]
      · rw [← g3]; simp [i2c_set_sda, i2c_set_scl, I2C_DLY]
      · rw [← g4]; simp [i2c_set_sda, i2c_set_scl, I2C_DLY]
      · have : sdaWrites (i2c_set_sda 1 (I2C_DLY (i2c_set_scl 0 (I2C_DLY (i2c_set_scl 1
            (i2c_set_sda 1 c)))))).trace = sdaWrites c.trace ++ [1, 1] := by
          simp [i2c_set_sda, i2c_set_scl, I2C_DLY, sdaWrites, List.filterMap_append]
        rw [this, g5]
        simp
    · simp only [ha, ne_eq, not_false_eq_true, if_true]
      refine ⟨g1, ?_, ?_, ?_, ?_⟩
      · rw [← g2]; simp [i2c_set_sda, i2c_set_scl, I2C_DLY]
      · rw [← g3]; simp [i2c_set_sda, i2c_set_scl, I2C_DLY]
      · rw [← g4]; simp [i2c_set_sda, i2c_set_scl, I2C_DLY]
      · have : sdaWrites (i2c_set_sda 1 (I2C_DLY (i2c_set_scl 0 (I2C_DLY (i2c_set_scl 1
            (i2c_set_sda 0 c)))))).trace = sdaWrites c.trace ++ [0, 1] := by
          simp [i2c_set_sda, i2c_set_scl, I2C_DLY, sdaWrites, List.filterMap_append]
        rw [this, g5]
        simp

/-! ## Buffer read -/

theorem i2c_read_buf_loop_acks (fuel : Nat) (len : Int) (n i : Nat) (data : List Nat)
    (b : Bus) (r : Nat × List Nat × Bus)
    (h : i2c_read_buf_loop fuel len n i data b = some r) :
    r.1 = 1 ∧
    (∃ e, rx_seq fuel ((List.range' i n).map fun j : Nat => if (j : Int) ≠ len - 1 then 1 else 0) b
        = some e ∧ r.2.2 = i2c_stop e) ∧
    r.2.2.sdaReads = b.sdaReads + 8 * n ∧
    sdaWrites r.2.2.trace = sdaWrites b.trace
      ++ ((List.range' i n).flatMap fun j : Nat => [1, if (j : Int) ≠ len - 1 then 0 else 1, 1])
      ++ [0, 1] := by
  induction n generalizing i data b with
  | zero =>
    simp only [i2c_read_buf_loop, Option.some.injEq] at h
    rw [← h]
    refine ⟨rfl, ⟨b, by simp [rx_seq], rfl⟩, ?_, ?_⟩
    · simp [(i2c_stop_inputs b).2.1]
    · rw [i2c_stop_trace, sdaWrites_append]
      simp [sdaWrites, stopEvents]
  | succ n ih =>
    rw [i2c_read_buf_loop] at h
    split at h
    · exact absurd h (by simp)
    · rename_i d c hc
      split at h
      · obtain ⟨g1, ⟨e, ge, gs⟩, g3, g4⟩ := ih _ _ _ h
        obtain ⟨-, -, x3, -, x5⟩ := i2c_rx_spec _ _ _ _ hc
        simp only at x3 x5
        refine ⟨g1, ⟨e, ?_, gs⟩, ?_, ?_⟩
        · rw [List.range'_succ, List.map_cons, rx_seq, hc]
          exact ge
        · rw [g3, x3]; omega
        · rw [g4, x5, List.range'_succ, List.flatMap_cons]
          by_cases hi : (i : Int) = len - 1 <;> simp [hi]
      · exact absurd h (by simp)

theorem i2c_read_buf_loop_data (fuel : Nat) (len : Int) (n i : Nat) (data : List Nat)
    (b : Bus) (r : Nat × List Nat × Bus)
    (h : i2c_read_buf_loop fuel len n i data b = some r) :
    r.2.1.length = data.length ∧
    (∀ j, j < n → r.2.1[i + j]? = some (rx_value b.sdaIn 8 (b.sdaReads + 8 * j) 0)) ∧
    (∀ j, j < i ∨ i + n ≤ j → r.2.1[j]? = data[j]?) := by
  induction n generalizing i data b with
  | zero =>
    simp only [i2c_read_buf_loop, Option.some.injEq] at h
    rw [← h]
    exact ⟨rfl, fun j hj => absurd hj (by omega), fun _ _ => rfl⟩
  | succ n ih =>
    rw [i2c_read_buf_loop] at h
    split at h
    · exact absurd h (by simp)
    · rename_i d c hc
      split at h
      · rename_i hi
        obtain ⟨g1, g2, g3⟩ := ih _ _ _ h
        obtain ⟨x1, x2, x3, -, -⟩ := i2c_rx_spec _ _ _ _ hc
        simp only at x1 x2 x3
        refine ⟨by rw [g1, List.length_set], ?_, ?_⟩
        · intro j hj
          cases j with
          | zero =>
            rw [Nat.add_zero, g3 i (Or.inl (by omega)), List.getElem?_set, if_pos rfl,
              if_pos hi, x1]
            rfl
          | succ j =>
            rw [show i + (j + 1) = i + 1 + j by omega, g2 j (by omega), x2, x3]
            rw [show b.sdaReads + 8 + 8 * j = b.sdaReads + 8 * (j + 1) by omega]
        · intro j hj
          rw [g3 j (by omega), List.getElem?_set_ne (by omega)]
      · exact absurd h (by simp)

/-- **C4** (last-byte NACK on read).  When the address byte is acknowledged and
`i2c_read_buf` returns, it returns 1; after the address byte it performed
exactly `len` receptions (`i2c_rx` calls, 8 SDA samples each), the `i`-th with
`ack` argument `i != len-1`, followed by `i2c_stop`; the values it wrote to SDA
after the address byte are, for each reception `i`, the release 1, then in the
acknowledge slot 0 when `i < len-1` and 1 otherwise, then the release 1, and
finally 0, 1 for the stop.  For `len ≤ 0` there is no reception: the bus is
that after start, address byte and stop. -/
theorem i2c_read_buf_acks (fuel ADR : Nat) (data : List Nat) (len : Int) (b : Bus)
    (r : Nat × List Nat × Bus)
    (hack : b.sdaIn b.sdaReads % 256 = 0)
    (h : i2c_read_buf fuel ADR data len b = some r) :
    r.1 = 1 ∧
    (∃ e, rx_seq fuel ((List.range len.toNat).map fun i : Nat => if (i : Int) ≠ len - 1 then 1 else 0)
          (i2c_tx ((ADR % 256) ||| 1) (i2c_start b)).2 = some e ∧ r.2.2 = i2c_stop e) ∧
    ((List.range len.toNat).map fun i : Nat => if (i : Int) ≠ len - 1 then 1 else 0).length
      = len.toNat ∧
    r.2.2.sdaReads = b.sdaReads + 1 + 8 * len.toNat ∧
    sdaWrites r.2.2.trace = sdaWrites (i2c_tx ((ADR % 256) ||| 1) (i2c_start b)).2.trace
      ++ ((List.range len.toNat).flatMap fun i : Nat => [1, if (i : Int) < len - 1 then 0 else 1, 1])
      ++ [0, 1] ∧
    (len ≤ 0 → r.2.2 = i2c_stop (i2c_tx ((ADR % 256) ||| 1) (i2c_start b)).2) := by
  have ha : (i2c_tx ((ADR % 256) ||| 1) (i2c_start b)).1 = 1 := by
    rw [i2c_tx_result]
    simp [(i2c_start_inputs b).1, (i2c_start_inputs b).2.1, hack]
  unfold i2c_read_buf at h
  simp only [ha, one_ne_zero, if_false] at h
  obtain ⟨g1, ⟨e, ge, gs⟩, g3, g4⟩ := i2c_read_buf_loop_acks _ _ _ _ _ _ _ h
  rw [← List.range_eq_range'] at ge g4
  refine ⟨g1, ⟨e, ge, gs⟩, by simp, ?_, ?_, ?_⟩
  · rw [g3, (i2c_tx_inputs _ _).2.1, (i2c_start_inputs b).2.1]
  · rw [g4]
    congr 2
    apply List.flatMap_congr
    intro i hi
    have hi2 : i < len.toNat := List.mem_range.mp hi
    by_cases hl : (i : Int) < len - 1
    · have : (i : Int) ≠ len - 1 := by omega
      simp [hl, this]
    · have : (i : Int) = len - 1 := by omega
      simp [this]
  · intro hl
    have hz : len.toNat = 0 := by omega
    rw [hz] at ge
    simp only [List.range_zero, List.map_nil, rx_seq, Option.some.injEq] at ge
    rw [gs, ← ge]

/-- Instance of C4: a read of three bytes writes ACK, ACK, NACK in the
acknowledge slots and then the stop. -/
theorem i2c_read_buf_acks_witness :
    ∃ r, i2c_read_buf 1 0xA0 [0, 0, 0] 3 (idleBus (fun _ => 1) (fun _ => 0)) = some r ∧
      r.1 = 1 ∧
      sdaWrites r.2.2.trace
        = sdaWrites (i2c_tx ((0xA0 % 256) ||| 1)
            (i2c_start (idleBus (fun _ => 1) (fun _ => 0)))).2.trace
          ++ ((List.range (3 : Int).toNat).flatMap
                fun i : Nat => [1, if (i : Int) < (3 : Int) - 1 then 0 else 1, 1])
          ++ [0, 1] :=
  ⟨Option.get _ (by decide), (Option.some_get _).symm,
    (i2c_read_buf_acks 1 0xA0 [0, 0, 0] 3 (idleBus (fun _ => 1) (fun _ => 0)) _
      (by decide) (Option.some_get _).symm).1,
    (i2c_read_buf_acks 1 0xA0 [0, 0, 0] 3 (idleBus (fun _ => 1) (fun _ => 0)) _
      (by decide) (Option.some_get _).symm).2.2.2.2.1⟩

theorem rx_step_bit : ∀ d < 128, ∀ s < 2,
    (((d <<< 1) % 256) ||| (s % 256)) % 256 = 2 * d + s := by
  decide

theorem rx_value_bits (sdaIn : Nat → Nat) (n k d m : Nat) (hd : d < 2 ^ m) (hm : m + n ≤ 8)
    (hs : ∀ j, j < n → sdaIn (k + j) ≤ 1) :
    rx_value sdaIn n k d
      = ((List.range' k n).map sdaIn).foldl (fun acc s => 2 * acc + s) d := by
  induction n generalizing k d m with
  | zero => simp [rx_value]
  | succ n ih =>
    have hs0 : sdaIn k ≤ 1 := by simpa using hs 0 (by omega)
    have hp : 2 ^ m ≤ 2 ^ 7 := Nat.pow_le_pow_right (by decide) (by omega)
    have hstep := rx_step_bit d (by omega) (sdaIn k) (by omega)
    have hp2 : 2 ^ (m + 1) = 2 * 2 ^ m := by rw [pow_succ]; omega
    rw [rx_value, hstep, List.range'_succ, List.map_cons, List.foldl_cons]
    exact ih (k + 1) (2 * d + sdaIn k) (m + 1) (by omega) (by omega) (by
      intro j hj
      have := hs (j + 1) (by omega)
      rwa [show k + 1 + j = k + (j + 1) by omega])

/-- **C5** (assembled buffer).  When the address byte is acknowledged, every
SDA reading is 0 or 1 and `i2c_read_buf` returns: it returns 1, the buffer
keeps its size, for every `i < len` entry `i` is the most-significant-bit-first
value of the `i`-th group of 8 SDA samples (the samples that follow the
acknowledge sample of the address byte), and every entry at an index `≥ len`
is unchanged. -/
theorem i2c_read_buf_data (fuel ADR : Nat) (data : List Nat) (len : Int) (b : Bus)
    (r : Nat × List Nat × Bus)
    (hack : b.sdaIn b.sdaReads % 256 = 0)
    (hbits : ∀ k, b.sdaIn k ≤ 1)
    (h : i2c_read_buf fuel ADR data len b = some r) :
    r.1 = 1 ∧ r.2.1.length = data.length ∧
    (∀ i, i < len.toNat →
      r.2.1[i]? = some (msbFirst ((List.range' (b.sdaReads + 1 + 8 * i) 8).map b.sdaIn))) ∧
    (∀ i, len.toNat ≤ i → r.2.1[i]? = data[i]?) := by
  have ha : (i2c_tx ((ADR % 256) ||| 1) (i2c_start b)).1 = 1 := by
    rw [i2c_tx_result]
    simp [(i2c_start_inputs b).1, (i2c_start_inputs b).2.1, hack]
  unfold i2c_read_buf at h
  simp only [ha, one_ne_zero, if_false] at h
  obtain ⟨g1, -, -, -⟩ := i2c_read_buf_loop_acks _ _ _ _ _ _ _ h
  obtain ⟨d1, d2, d3⟩ := i2c_read_buf_loop_data _ _ _ _ _ _ _ h
  refine ⟨g1, d1, ?_, ?_⟩
  · intro i hi
    have := d2 i hi
    rw [Nat.zero_add, (i2c_tx_inputs _ _).1, (i2c_tx_inputs _ _).2.1, (i2c_start_inputs b).1,
      (i2c_start_inputs b).2.1] at this
    rw [this, rx_value_bits b.sdaIn 8 _ 0 0 (by decide) (by decide) (fun j _ => hbits _)]
    rfl
  · intro i hi
    exact d3 i (Or.inr (by omega))

/-- Instance of C5: the samples `1,0,1,0,0,1,0,1` after the acknowledge sample
give the byte `0xA5`. -/
theorem i2c_read_buf_data_witness :
    ∃ r, i2c_read_buf 1 0xA0 [7, 9] 1
        (idleBus (fun _ => 1) (fun k => [0, 1, 0, 1, 0, 0, 1, 0, 1].getD k 0)) = some r ∧
      r.1 = 1 ∧ r.2.1 = [0xA5, 9] ∧
      (∀ i, i < (1 : Int).toNat →
        r.2.1[i]? = some (msbFirst ((List.range'
          ((idleBus (fun _ => 1) (fun k => [0, 1, 0, 1, 0, 0, 1, 0, 1].getD k 0)).sdaReads
            + 1 + 8 * i) 8).map
          (idleBus (fun _ => 1) (fun k => [0, 1, 0, 1, 0, 0, 1, 0, 1].getD k 0)).sdaIn))) :=
  ⟨Option.get _ (by decide), (Option.some_get _).symm,
    (i2c_read_buf_data 1 0xA0 [7, 9] 1
      (idleBus (fun _ => 1) (fun k => [0, 1, 0, 1, 0, 0, 1, 0, 1].getD k 0)) _
      (by decide)
      (by
        intro k
        show [0, 1, 0, 1, 0, 0, 1, 0, 1].getD k 0 ≤ 1
        rcases Nat.lt_or_ge k 9 with hk | hk
        · interval_cases k <;> decide
        · rw [List.getD_eq_default _ _ (by simpa using hk)]; decide)
      (Option.some_get _).symm).1,
    by decide,
    (i2c_read_buf_data 1 0xA0 [7, 9] 1
      (idleBus (fun _ => 1) (fun k => [0, 1, 0, 1, 0, 0, 1, 0, 1].getD k 0)) _
      (by decide)
      (by
        intro k
        show [0, 1, 0, 1, 0, 0, 1, 0, 1].getD k 0 ≤ 1
        rcases Nat.lt_or_ge k 9 with hk | hk
        · interval_cases k <;> decide
        · rw [List.getD_eq_default _ _ (by simpa using hk)]; decide)
      (Option.some_get _).symm).2.2.1⟩

theorem lineReads_tx_loop_events (x d : Nat) : lineReads (tx_loop_events x d) = [] := by
  induction x generalizing d with
  | zero => rfl
  | succ x ih =>
    simp only [tx_loop_events, lineReads, List.filter_append] at ih ⊢
    rw [ih]
    rfl

theorem lineReads_tx_events (d v : Nat) : lineReads (tx_events d v) = [Ev.getSda v] := by
  have h := lineReads_tx_loop_events 8 (d % 256)
  simp only [tx_events, lineReads, List.filter_append] at h ⊢
  rw [h]
  rfl

/-- **C6** (address NACK on read).  When the address byte of `i2c_read_buf` is
not acknowledged, the call returns 0 with the destination buffer unchanged;
what it did on the bus is `i2c_start`, `i2c_tx` of the address byte and
`i2c_stop`; SCL was never read and SDA was read exactly once (the acknowledge
sample); and its last three line writes are SDA=0, SCL=1, SDA=1. -/
theorem i2c_read_buf_addr_nack (fuel ADR : Nat) (data : List Nat) (len : Int) (b : Bus)
    (hnack : b.sdaIn b.sdaReads % 256 ≠ 0) :
    ∃ c, i2c_read_buf fuel ADR data len b = some (0, data, c) ∧
      c = i2c_stop (i2c_tx ((ADR % 256) ||| 1) (i2c_start b)).2 ∧
      c.sclReads = b.sclReads ∧ c.sdaReads = b.sdaReads + 1 ∧
      lineReads (newEvents b c) = [Ev.getSda (b.sdaIn b.sdaReads % 256)] ∧
      lineWrites c.trace
        = lineWrites (i2c_tx ((ADR % 256) ||| 1) (i2c_start b)).2.trace
            ++ [(false, 0), (true, 1), (false, 1)] := by
  have ha : (i2c_tx ((ADR % 256) ||| 1) (i2c_start b)).1 = 0 := by
    rw [i2c_tx_result]
    simpa [(i2c_start_inputs b).1, (i2c_start_inputs b).2.1] using hnack
  refine ⟨_, ?_, rfl, ?_, ?_, ?_, lineWrites_stop _⟩
  · unfold i2c_read_buf
    simp only [ha, if_true]
  · rw [(i2c_stop_inputs _).2.2.2, (i2c_tx_inputs _ _).2.2.2, (i2c_start_inputs b).2.2.2]
  · rw [(i2c_stop_inputs _).2.1, (i2c_tx_inputs _ _).2.1, (i2c_start_inputs b).2.1]
  · rw [newEvents_append b _
      (startEvents ++ tx_events ((ADR % 256) ||| 1) (b.sdaIn b.sdaReads % 256) ++ stopEvents)
      (by rw [i2c_stop_trace, i2c_tx_trace, i2c_start_trace, (i2c_start_inputs b).1,
            (i2c_start_inputs b).2.1]
          simp only [List.append_assoc])]
    have h := lineReads_tx_events ((ADR % 256) ||| 1) (b.sdaIn b.sdaReads % 256)
    simp only [lineReads, List.filter_append] at h ⊢
    rw [h]
    rfl

/-- Instance of C6: nobody answers at address `0xA0`. -/
theorem i2c_read_buf_addr_nack_witness :
    ∃ c, i2c_read_buf 1 0xA0 [7, 9] 2 (idleBus (fun _ => 1) (fun _ => 1)) = some (0, [7, 9], c) ∧
      c = i2c_stop (i2c_tx ((0xA0 % 256) ||| 1)
            (i2c_start (idleBus (fun _ => 1) (fun _ => 1)))).2 ∧
      c.sclReads = (idleBus (fun _ => 1) (fun _ => 1)).sclReads ∧
      c.sdaReads = (idleBus (fun _ => 1) (fun _ => 1)).sdaReads + 1 ∧
      lineReads (newEvents (idleBus (fun _ => 1) (fun _ => 1)) c)
        = [Ev.getSda ((idleBus (fun _ => 1) (fun _ => 1)).sdaIn
            (idleBus (fun _ => 1) (fun _ => 1)).sdaReads % 256)] ∧
      lineWrites c.trace
        = lineWrites (i2c_tx ((0xA0 % 256) ||| 1)
            (i2c_start (idleBus (fun _ => 1) (fun _ => 1)))).2.trace
            ++ [(false, 0), (true, 1), (false, 1)] :=
  i2c_read_buf_addr_nack 1 0xA0 [7, 9] 2 (idleBus (fun _ => 1) (fun _ => 1)) (by decide)

/-! ## The address byte -/

theorem sdaWrites_tx_loop_length (x d : Nat) : (sdaWrites (tx_loop_events x d)).length = x := by
  induction x generalizing d with
  | zero => rfl
  | succ x ih =>
    rw [tx_loop_events, sdaWrites_append, List.length_append, ih]
    simp [sdaWrites]
    omega

set_option maxRecDepth 100000 in
theorem firstByte_tx_loop : ∀ d < 256, msbFirst (sdaWrites (tx_loop_events 8 d)) = d := by
  decide

theorem firstByte_tx_events (d v : Nat) (rest : List Ev) :
    firstByte (tx_events d v ++ rest) = d % 256 := by
  unfold firstByte tx_events
  rw [List.append_assoc, sdaWrites_append, List.take_left' (sdaWrites_tx_loop_length 8 _)]
  exact firstByte_tx_loop _ (Nat.mod_lt _ (by decide))

theorem i2c_write_buf_loop_trace (data : List Nat) (n i : Nat) (b : Bus) (r : Nat × Bus)
    (h : i2c_write_buf_loop data n i b = some r) : ∃ evs, r.2.trace = b.trace ++ evs := by
  induction n generalizing i b with
  | zero =>
    simp only [i2c_write_buf_loop, Option.some.injEq] at h
    exact ⟨stopEvents, by rw [← h, i2c_stop_trace]⟩
  | succ n ih =>
    rw [i2c_write_buf_loop] at h
    split at h
    · exact absurd h (by simp)
    · rename_i v _
      by_cases hr : (i2c_tx v b).1 = 0
      · simp only [hr, if_true, Option.some.injEq] at h
        exact ⟨tx_events v (b.sdaIn b.sdaReads % 256) ++ stopEvents,
          by rw [← h, i2c_stop_trace, i2c_tx_trace, List.append_assoc]⟩
      · simp only [hr, if_false] at h
        obtain ⟨evs, he⟩ := ih _ _ h
        exact ⟨tx_events v (b.sdaIn b.sdaReads % 256) ++ evs,
          by rw [he, i2c_tx_trace, List.append_assoc]⟩

theorem i2c_write_buf_trace (ADR : Nat) (data : List Nat) (len : Int) (b : Bus)
    (r : Nat × Bus) (h : i2c_write_buf ADR data len b = some r) :
    ∃ evs, r.2.trace
      = b.trace ++ (startEvents ++ (tx_events ADR (b.sdaIn b.sdaReads % 256) ++ evs)) := by
  have ht : (i2c_tx ADR (i2c_start b)).2.trace
      = b.trace ++ (startEvents ++ tx_events ADR (b.sdaIn b.sdaReads % 256)) := by
    rw [i2c_tx_trace, i2c_start_trace, (i2c_start_inputs b).1, (i2c_start_inputs b).2.1,
      List.append_assoc]
  unfold i2c_write_buf at h
  by_cases hr : (i2c_tx ADR (i2c_start b)).1 = 0
  · simp only [hr, if_true, Option.some.injEq] at h
    exact ⟨stopEvents, by rw [← h, i2c_stop_trace, ht]; simp only [List.append_assoc]⟩
  · simp only [hr, if_false] at h
    obtain ⟨evs, he⟩ := i2c_write_buf_loop_trace _ _ _ _ _ h
    exact ⟨evs, by rw [he, ht]; simp only [List.append_assoc]⟩

/-- **C7**, as the code has it.  Whenever `i2c_write_buf` returns, the events
it appended begin with the start condition, and the byte transmitted right
after it is the address argument `ADR` itself (as `uint8_t`), not shifted. -/
theorem i2c_write_buf_first_byte (ADR : Nat) (data : List Nat) (len : Int) (b : Bus)
    (r : Nat × Bus) (h : i2c_write_buf ADR data len b = some r) :
    (newEvents b r.2).take 8 = startEvents ∧
    firstByte ((newEvents b r.2).drop 8) = ADR % 256 := by
  obtain ⟨evs, he⟩ := i2c_write_buf_trace _ _ _ _ _ h
  rw [newEvents_append b r.2 _ he]
  refine ⟨rfl, ?_⟩
  rw [show (startEvents ++ (tx_events ADR (b.sdaIn b.sdaReads % 256) ++ evs)).drop 8
      = tx_events ADR (b.sdaIn b.sdaReads % 256) ++ evs from rfl]
  exact firstByte_tx_events _ _ _

/-- Instance of C7 as the code has it: address argument 1 puts the byte 1 on
the bus. -/
theorem i2c_write_buf_first_byte_witness :
    ∃ r, i2c_write_buf 1 [] 0 (idleBus (fun _ => 1) (fun _ => 0)) = some r ∧
      (newEvents (idleBus (fun _ => 1) (fun _ => 0)) r.2).take 8 = startEvents ∧
      firstByte ((newEvents (idleBus (fun _ => 1) (fun _ => 0)) r.2).drop 8) = 1 % 256 :=
  ⟨Option.get _ (by decide), (Option.some_get _).symm,
    i2c_write_buf_first_byte 1 [] 0 (idleBus (fun _ => 1) (fun _ => 0)) _
      (Option.some_get _).symm⟩

/-- **C7** as stated fails at the 7-bit address `a = 1`: passed as the address
argument, the first byte `i2c_write_buf` transmits after the start condition
is 1, not `a << 1 = 2`. -/
theorem i2c_write_buf_first_byte_not_shifted :
    (1 : Nat) ≤ 127 ∧
    ∃ r, i2c_write_buf 1 [] 0 (idleBus (fun _ => 1) (fun _ => 0)) = some r ∧
      firstByte ((newEvents (idleBus (fun _ => 1) (fun _ => 0)) r.2).drop 8) = 1 ∧
      firstByte ((newEvents (idleBus (fun _ => 1) (fun _ => 0)) r.2).drop 8) ≠ 1 <<< 1 :=
  ⟨by decide, Option.get _ (by decide), (Option.some_get _).symm, by decide, by decide⟩

theorem i2c_rx_wait_trace (fuel : Nat) (b c : Bus) (h : i2c_rx_wait fuel b = some c) :
    ∃ evs, c.trace = b.trace ++ evs := by
  induction fuel generalizing b with
  | zero => simp [i2c_rx_wait] at h
  | succ fuel ih =>
    rw [i2c_rx_wait] at h
    by_cases hv : (i2c_get_scl b).1 = 0
    · simp only [hv, if_true] at h
      obtain ⟨evs, he⟩ := ih _ h
      exact ⟨[Ev.getScl (b.sclIn b.sclReads % 256)] ++ evs, by
        rw [he]; simp [i2c_get_scl]⟩
    · simp only [hv, if_false, Option.some.injEq] at h
      exact ⟨[Ev.getScl (b.sclIn b.sclReads % 256)], by rw [← h]; simp [i2c_get_scl]⟩

theorem i2c_rx_loop_trace (fuel n d : Nat) (b : Bus) (r : Nat × Bus)
    (h : i2c_rx_loop fuel n d b = some r) : ∃ evs, r.2.trace = b.trace ++ evs := by
  induction n generalizing d b with
  | zero =>
    simp only [i2c_rx_loop, Option.some.injEq] at h
    exact ⟨[], by rw [← h]; simp⟩
  | succ n ih =>
    rw [i2c_rx_loop] at h
    simp only at h
    split at h
    · exact absurd h (by simp)
    · rename_i c hc
      obtain ⟨e1, he1⟩ := i2c_rx_wait_trace _ _ _ hc
      obtain ⟨e2, he2⟩ := ih _ _ h
      exact ⟨[Ev.setScl 1, Ev.delay 5] ++ e1
          ++ [Ev.getSda (c.sdaIn c.sdaReads % 256), Ev.setScl 0, Ev.delay 5] ++ e2, by
        rw [he2]
        simp [i2c_get_sda, i2c_set_scl, I2C_DLY, he1]⟩

theorem i2c_rx_trace (fuel ack : Nat) (b : Bus) (r : Nat × Bus)
    (h : i2c_rx fuel ack b = some r) : ∃ evs, r.2.trace = b.trace ++ evs := by
  unfold i2c_rx at h
  simp only at h
  split at h
  · exact absurd h (by simp)
  · rename_i d c hc
    obtain ⟨e1, he1⟩ := i2c_rx_loop_trace _ _ _ _ _ hc
    simp only [Option.some.injEq] at h
    simp only at he1
    by_cases ha : ack = 0
    · exact ⟨[Ev.setSda 1] ++ e1
          ++ [Ev.setSda 1, Ev.setScl 1, Ev.delay 5, Ev.setScl 0, Ev.delay 5, Ev.setSda 1], by
        rw [← h]
        simp [ha, i2c_set_sda, i2c_set_scl, I2C_DLY, he1]⟩
    · exact ⟨[Ev.setSda 1] ++ e1
          ++ [Ev.setSda 0, Ev.setScl 1, Ev.delay 5, Ev.setScl 0, Ev.delay 5, Ev.setSda 1], by
        rw [← h]
        simp [ha, i2c_set_sda, i2c_set_scl, I2C_DLY, he1]⟩

theorem i2c_read_buf_loop_trace (fuel : Nat) (len : Int) (n i : Nat) (data : List Nat)
    (b : Bus) (r : Nat × List Nat × Bus)
    (h : i2c_read_buf_loop fuel len n i data b = some r) :
    ∃ evs, r.2.2.trace = b.trace ++ evs := by
  induction n generalizing i data b with
  | zero =>
    simp only [i2c_read_buf_loop, Option.some.injEq] at h
    exact ⟨stopEvents, by rw [← h, i2c_stop_trace]⟩
  | succ n ih =>
    rw [i2c_read_buf_loop] at h
    split at h
    · exact absurd h (by simp)
    · rename_i d c hc
      split at h
      · obtain ⟨e1, he1⟩ := i2c_rx_trace _ _ _ _ hc
        obtain ⟨e2, he2⟩ := ih _ _ _ h
        simp only at he1
        exact ⟨e1 ++ e2, by rw [he2, he1, List.append_assoc]⟩
      · exact absurd h (by simp)

theorem i2c_read_buf_trace (fuel ADR : Nat) (data : List Nat) (len : Int) (b : Bus)
    (r : Nat × List Nat × Bus) (h : i2c_read_buf fuel ADR data len b = some r) :
    ∃ evs, r.2.2.trace = b.trace
      ++ (startEvents ++ (tx_events ((ADR % 256) ||| 1) (b.sdaIn b.sdaReads % 256) ++ evs)) := by
  have ht : (i2c_tx ((ADR % 256) ||| 1) (i2c_start b)).2.trace
      = b.trace ++ (startEvents ++ tx_events ((ADR % 256) ||| 1) (b.sdaIn b.sdaReads % 256)) := by
    rw [i2c_tx_trace, i2c_start_trace, (i2c_start_inputs b).1, (i2c_start_inputs b).2.1,
      List.append_assoc]
  unfold i2c_read_buf at h
  by_cases hr : (i2c_tx ((ADR % 256) ||| 1) (i2c_start b)).1 = 0
  · simp only [hr, if_true, Option.some.injEq] at h
    exact ⟨stopEvents, by rw [← h, i2c_stop_trace, ht]; simp only [List.append_assoc]⟩
  · simp only [hr, if_false] at h
    obtain ⟨evs, he⟩ := i2c_read_buf_loop_trace _ _ _ _ _ _ _ h
    exact ⟨evs, by rw [he, ht]; simp only [List.append_assoc]⟩

set_option maxRecDepth 100000 in
theorem lor_one_byte : ∀ d < 256, (d ||| 1) % 256 = d ||| 1 := by
  decide

/-- **C8**, as the code has it.  Whenever `i2c_read_buf` returns, the events
it appended begin with the start condition, and the byte transmitted right
after it is `ADR | 1`: the address argument itself (as `uint8_t`), not
shifted, with bit 0 set. -/
theorem i2c_read_buf_first_byte (fuel ADR : Nat) (data : List Nat) (len : Int) (b : Bus)
    (r : Nat × List Nat × Bus) (h : i2c_read_buf fuel ADR data len b = some r) :
    (newEvents b r.2.2).take 8 = startEvents ∧
    firstByte ((newEvents b r.2.2).drop 8) = (ADR % 256) ||| 1 := by
  obtain ⟨evs, he⟩ := i2c_read_buf_trace _ _ _ _ _ _ h
  rw [newEvents_append b r.2.2 _ he]
  refine ⟨rfl, ?_⟩
  rw [show (startEvents ++ (tx_events ((ADR % 256) ||| 1) (b.sdaIn b.sdaReads % 256)
        ++ evs)).drop 8
      = tx_events ((ADR % 256) ||| 1) (b.sdaIn b.sdaReads % 256) ++ evs from rfl]
  rw [firstByte_tx_events]
  exact lor_one_byte _ (Nat.mod_lt _ (by decide))

/-- Instance of C8 as the code has it: address argument 1 puts the byte 1 on
the bus. -/
theorem i2c_read_buf_first_byte_witness :
    ∃ r, i2c_read_buf 1 1 [] 0 (idleBus (fun _ => 1) (fun _ => 0)) = some r ∧
      (newEvents (idleBus (fun _ => 1) (fun _ => 0)) r.2.2).take 8 = startEvents ∧
      firstByte ((newEvents (idleBus (fun _ => 1) (fun _ => 0)) r.2.2).drop 8)
        = (1 % 256) ||| 1 :=
  ⟨Option.get _ (by decide), (Option.some_get _).symm,
    i2c_read_buf_first_byte 1 1 [] 0 (idleBus (fun _ => 1) (fun _ => 0)) _
      (Option.some_get _).symm⟩

/-- **C8** as stated fails at the 7-bit address `a = 1`: passed as the address
argument, the first byte `i2c_read_buf` transmits after the start condition is
1, not `(a << 1) | 1 = 3`. -/
theorem i2c_read_buf_first_byte_not_shifted :
    (1 : Nat) ≤ 127 ∧
    ∃ r, i2c_read_buf 1 1 [] 0 (idleBus (fun _ => 1) (fun _ => 0)) = some r ∧
      firstByte ((newEvents (idleBus (fun _ => 1) (fun _ => 0)) r.2.2).drop 8) = 1 ∧
      firstByte ((newEvents (idleBus (fun _ => 1) (fun _ => 0)) r.2.2).drop 8)
        ≠ (1 <<< 1) ||| 1 :=
  ⟨by decide, Option.get _ (by decide), (Option.some_get _).symm, by decide, by decide⟩

/-! ## Bit order -/

theorem rx_value_eq_foldl (sdaIn : Nat → Nat) (n k d : Nat) :
    rx_value sdaIn n k d = ((List.range' k n).map sdaIn).foldl
      (fun d s => (((d <<< 1) % 256) ||| (s % 256)) % 256) d := by
  induction n generalizing k d with
  | zero => simp [rx_value]
  | succ n ih => rw [rx_value, ih, List.range'_succ, List.map_cons, List.foldl_cons]

set_option maxRecDepth 100000 in
theorem rx_of_tx_bits : ∀ d < 256, (sdaWrites (tx_loop_events 8 d)).foldl
    (fun d s => (((d <<< 1) % 256) ||| (s % 256)) % 256) 0 = d := by
  decide

theorem i2c_rx_wait_released (fuel : Nat) (b : Bus) (h : b.sclIn b.sclReads % 256 ≠ 0) :
    i2c_rx_wait (fuel + 1) b = some (i2c_get_scl b).2 := by
  rw [i2c_rx_wait]
  have : (i2c_get_scl b).1 ≠ 0 := h
  simp [this]

theorem i2c_rx_loop_returns (fuel n d : Nat) (b : Bus) (h : ∀ k, b.sclIn k % 256 ≠ 0) :
    ∃ r, i2c_rx_loop (fuel + 1) n d b = some r := by
  induction n generalizing d b with
  | zero => exact ⟨_, rfl⟩
  | succ n ih =>
    rw [i2c_rx_loop]
    simp only
    rw [i2c_rx_wait_released fuel _ (by simpa [i2c_set_scl, I2C_DLY] using h _)]
    simp only
    exact ih _ _ (by simpa [i2c_get_sda, i2c_get_scl, i2c_set_scl, I2C_DLY] using h)

theorem i2c_rx_returns (fuel ack : Nat) (b : Bus) (h : ∀ k, b.sclIn k % 256 ≠ 0) :
    ∃ r, i2c_rx (fuel + 1) ack b = some r := by
  obtain ⟨r, hr⟩ := i2c_rx_loop_returns fuel 8 0 (i2c_set_sda 1 b)
    (by simpa [i2c_set_sda] using h)
  unfold i2c_rx
  simp only [hr]
  exact ⟨_, rfl⟩

/-- **C9** (bit-order round trip).  For every byte `d`, when the first eight
values `i2c_tx d` writes to SDA (its data bits, in the order written) are the
eight SDA samples of one `i2c_rx` call, and SCL reads released, that `i2c_rx`
call returns and its result is exactly `d`. -/
theorem tx_rx_round_trip (d : Nat) (hd : d < 256) (fuel ack : Nat) (b b2 : Bus)
    (hfeed : (List.range' b2.sdaReads 8).map b2.sdaIn
      = (sdaWrites (newEvents b (i2c_tx d b).2)).take 8)
    (hscl : ∀ k, b2.sclIn k % 256 ≠ 0) :
    ∃ c, i2c_rx (fuel + 1) ack b2 = some (d, c) := by
  obtain ⟨r, hr⟩ := i2c_rx_returns fuel ack b2 hscl
  obtain ⟨h1, -⟩ := i2c_rx_spec _ _ _ _ hr
  have hv : r.1 = d := by
    rw [h1, rx_value_eq_foldl, hfeed, newEvents_append b _ _ (i2c_tx_trace d b)]
    unfold tx_events
    rw [sdaWrites_append, List.take_left' (sdaWrites_tx_loop_length 8 _), Nat.mod_eq_of_lt hd]
    exact rx_of_tx_bits d hd
  exact ⟨r.2, by rw [hr, ← hv]⟩

/-- Instance of C9: the byte `0xA5`. -/
theorem tx_rx_round_trip_witness :
    ∃ c, i2c_rx (0 + 1) 1
        (idleBus (fun _ => 1) (fun k => [1, 0, 1, 0, 0, 1, 0, 1].getD k 0)) = some (0xA5, c) :=
  tx_rx_round_trip 0xA5 (by decide) 0 1 (idleBus (fun _ => 1) (fun _ => 0))
    (idleBus (fun _ => 1) (fun k => [1, 0, 1, 0, 0, 1, 0, 1].getD k 0))
    (by decide) (by intro k; show 1 % 256 ≠ 0; decide)

/-! ## Composite register read -/

theorem startConditions_append (xs ys : List Ev) (scl sda : Nat) :
    startConditions scl sda (xs ++ ys)
      = startConditions scl sda xs
        + startConditions (linesAfter scl sda xs).1 (linesAfter scl sda xs).2 ys := by
  induction xs generalizing scl sda with
  | nil => simp [startConditions, linesAfter]
  | cons e xs ih =>
    rw [List.cons_append]
    cases e <;> simp only [startConditions, linesAfter] <;> rw [ih]
    omega

theorem linesAfter_append (xs ys : List Ev) (scl sda : Nat) :
    linesAfter scl sda (xs ++ ys)
      = linesAfter (linesAfter scl sda xs).1 (linesAfter scl sda xs).2 ys := by
  induction xs generalizing scl sda with
  | nil => simp [linesAfter]
  | cons e xs ih =>
    rw [List.cons_append]
    cases e <;> simp only [linesAfter] <;> rw [ih]

theorem startConditions_tx_loop (x d sda : Nat) :
    startConditions 0 sda (tx_loop_events x d) = 0 ∧
    (linesAfter 0 sda (tx_loop_events x d)).1 = 0 := by
  induction x generalizing d sda with
  | zero => simp [tx_loop_events, startConditions, linesAfter]
  | succ x ih =>
    simp only [tx_loop_events, List.cons_append, List.nil_append, startConditions, linesAfter]
    simpa using ih _ _

theorem startConditions_tx (d v sda : Nat) :
    startConditions 0 sda (tx_events d v) = 0 ∧ linesAfter 0 sda (tx_events d v) = (0, 1) := by
  obtain ⟨h1, h2⟩ := startConditions_tx_loop 8 (d % 256) sda
  unfold tx_events
  rw [startConditions_append, linesAfter_append, h1, h2]
  simp [startConditions, linesAfter]

theorem startConditions_start (scl sda : Nat) :
    startConditions scl sda startEvents = 1 ∧ linesAfter scl sda startEvents = (0, 0) := by
  simp [startEvents, startConditions, linesAfter]

theorem startConditions_stop (sda : Nat) : startConditions 0 sda stopEvents = 0 := by
  simp [stopEvents, startConditions]

theorem i2c_write_buf_of_addr_nack (ADR : Nat) (data : List Nat) (len : Int) (b : Bus)
    (h : (i2c_tx ADR (i2c_start b)).1 = 0) :
    i2c_write_buf ADR data len b = some (0, i2c_stop (i2c_tx ADR (i2c_start b)).2) := by
  unfold i2c_write_buf
  simp only [h, if_true]

theorem i2c_write_buf_index_fails (ADR reg : Nat) (b c : Bus)
    (h : i2c_write_buf ADR [reg] 1 b = some (0, c)) :
    c = i2c_stop (tx_seq [ADR] (i2c_start b)) ∨
    c = i2c_stop (tx_seq [ADR, reg] (i2c_start b)) := by
  unfold i2c_write_buf at h
  by_cases hr : (i2c_tx ADR (i2c_start b)).1 = 0
  · simp only [hr, if_true, Option.some.injEq, Prod.mk.injEq, true_and] at h
    left
    rw [← h, tx_seq_cons]
    rfl
  · simp only [hr, if_false] at h
    rw [show (1 : Int).toNat = 1 from rfl, i2c_write_buf_loop] at h
    simp only [List.getElem?_cons_zero] at h
    by_cases hq : (i2c_tx reg (i2c_tx ADR (i2c_start b)).2).1 = 0
    · simp only [hq, if_true, Option.some.injEq, Prod.mk.injEq, true_and] at h
      right
      rw [← h, tx_seq_cons, tx_seq_cons]
      rfl
    · simp only [hq, if_false, i2c_write_buf_loop, Option.some.injEq, Prod.mk.injEq,
        one_ne_zero, false_and] at h

/-- **C10**, as the code has it (composite read failure propagation).  When
the index-write phase `i2c_write_buf(Port, ADR, [reg_nr], 1)` of `i2c_read_reg`
(respectively `i2c_read_regs`) returns 0, the composite call returns 0, its
destination is unchanged and the bus is left exactly as the index write left
it: the read transaction is not started, the only bytes transmitted are `ADR`
alone or `ADR` followed by `reg_nr`, the events of the call contain exactly
one start condition and SCL is never read.  (The byte `ADR` is sent as it is,
so for an odd `ADR` it is the same byte as `ADR | 1`.) -/
theorem read_reg_index_write_fails (fuel ADR reg_nr : Nat) (value values : List Nat)
    (len : Int) (b c : Bus)
    (h : i2c_write_buf ADR [reg_nr % 256] 1 b = some (0, c)) :
    i2c_read_reg fuel ADR reg_nr value b = some (0, value, c) ∧
    i2c_read_regs fuel ADR reg_nr values len b = some (0, values, c) ∧
    (c = i2c_stop (tx_seq [ADR] (i2c_start b)) ∨
      c = i2c_stop (tx_seq [ADR, reg_nr % 256] (i2c_start b))) ∧
    startConditions b.scl b.sda (newEvents b c) = 1 ∧
    c.sclReads = b.sclReads := by
  have hc := i2c_write_buf_index_fails _ _ _ _ h
  refine ⟨?_, ?_, hc, ?_, ?_⟩
  · unfold i2c_read_reg
    rw [h]
    simp
  · unfold i2c_read_regs
    rw [h]
    simp
  · rcases hc with hc | hc
    · rw [newEvents_append b c (startEvents ++ (tx_events ADR (b.sdaIn b.sdaReads % 256)
          ++ stopEvents)) (by
        rw [hc, i2c_stop_trace, tx_seq_cons]
        show (i2c_tx ADR (i2c_start b)).2.trace ++ stopEvents = _
        rw [i2c_tx_trace, i2c_start_trace, (i2c_start_inputs b).1, (i2c_start_inputs b).2.1]
        simp only [List.append_assoc])]
      rw [startConditions_append, (startConditions_start _ _).1, (startConditions_start _ _).2,
        startConditions_append, (startConditions_tx _ _ _).1, (startConditions_tx _ _ _).2,
        startConditions_stop]
    · rw [newEvents_append b c (startEvents ++ (tx_events ADR (b.sdaIn b.sdaReads % 256)
          ++ (tx_events (reg_nr % 256) (b.sdaIn (b.sdaReads + 1) % 256) ++ stopEvents))) (by
        rw [hc, i2c_stop_trace, tx_seq_cons, tx_seq_cons]
        show (i2c_tx (reg_nr % 256) (i2c_tx ADR (i2c_start b)).2).2.trace ++ stopEvents = _
        rw [i2c_tx_trace, i2c_tx_trace, i2c_start_trace, (i2c_tx_inputs _ _).1,
          (i2c_tx_inputs _ _).2.1, (i2c_start_inputs b).1, (i2c_start_inputs b).2.1]
        simp only [List.append_assoc])]
      rw [startConditions_append, (startConditions_start _ _).1, (startConditions_start _ _).2,
        startConditions_append, (startConditions_tx _ _ _).1, (startConditions_tx _ _ _).2,
        startConditions_append, (startConditions_tx _ _ _).1, (startConditions_tx _ _ _).2,
        startConditions_stop]
  · rcases hc with hc | hc <;>
      rw [hc, (i2c_stop_inputs _).2.2.2, (tx_seq_inputs _ _).2.2.2, (i2c_start_inputs b).2.2.2]

/-- Instance of C10: nobody answers at address `0xA0`, so the index write
fails and the read of register 5 is given up. -/
theorem read_reg_index_write_fails_witness :
    i2c_read_reg 1 0xA0 5 [7] (idleBus (fun _ => 1) (fun _ => 1))
      = some (0, [7], i2c_stop (i2c_tx 0xA0 (i2c_start (idleBus (fun _ => 1) (fun _ => 1)))).2) ∧
    i2c_read_regs 1 0xA0 5 [7, 9] 2 (idleBus (fun _ => 1) (fun _ => 1))
      = some (0, [7, 9],
          i2c_stop (i2c_tx 0xA0 (i2c_start (idleBus (fun _ => 1) (fun _ => 1)))).2) ∧
    startConditions (idleBus (fun _ => 1) (fun _ => 1)).scl
      (idleBus (fun _ => 1) (fun _ => 1)).sda
      (newEvents (idleBus (fun _ => 1) (fun _ => 1))
        (i2c_stop (i2c_tx 0xA0 (i2c_start (idleBus (fun _ => 1) (fun _ => 1)))).2)) = 1 :=
  ⟨(read_reg_index_write_fails 1 0xA0 5 [7] [7, 9] 2 (idleBus (fun _ => 1) (fun _ => 1)) _
      (i2c_write_buf_of_addr_nack 0xA0 [5 % 256] 1 _ (by decide))).1,
    (read_reg_index_write_fails 1 0xA0 5 [7] [7, 9] 2 (idleBus (fun _ => 1) (fun _ => 1)) _
      (i2c_write_buf_of_addr_nack 0xA0 [5 % 256] 1 _ (by decide))).2.1,
    (read_reg_index_write_fails 1 0xA0 5 [7] [7, 9] 2 (idleBus (fun _ => 1) (fun _ => 1)) _
      (i2c_write_buf_of_addr_nack 0xA0 [5 % 256] 1 _ (by decide))).2.2.2.1⟩

/-- **C10** as stated fails at the odd address argument `ADR = 0xA1`: nobody
answers, the index write of `i2c_read_reg` returns 0 and the composite call
returns 0 after a single start condition, yet the byte transmitted right after
that start condition is `0xA1`, which is the read-direction address byte
`ADR | 1`. -/
theorem read_reg_odd_address_sends_read_byte :
    i2c_write_buf 0xA1 [5 % 256] 1 (idleBus (fun _ => 1) (fun _ => 1))
      = some (0, i2c_stop (i2c_tx 0xA1 (i2c_start (idleBus (fun _ => 1) (fun _ => 1)))).2) ∧
    i2c_read_reg 1 0xA1 5 [7] (idleBus (fun _ => 1) (fun _ => 1))
      = some (0, [7], i2c_stop (i2c_tx 0xA1 (i2c_start (idleBus (fun _ => 1) (fun _ => 1)))).2) ∧
    startConditions (idleBus (fun _ => 1) (fun _ => 1)).scl
      (idleBus (fun _ => 1) (fun _ => 1)).sda
      (newEvents (idleBus (fun _ => 1) (fun _ => 1))
        (i2c_stop (i2c_tx 0xA1 (i2c_start (idleBus (fun _ => 1) (fun _ => 1)))).2)) = 1 ∧
    firstByte ((newEvents (idleBus (fun _ => 1) (fun _ => 1))
        (i2c_stop (i2c_tx 0xA1 (i2c_start (idleBus (fun _ => 1) (fun _ => 1)))).2)).drop 8)
      = 0xA1 ||| 1 :=
  ⟨i2c_write_buf_of_addr_nack 0xA1 [5 % 256] 1 _ (by decide),
    by
      unfold i2c_read_reg
      rw [i2c_write_buf_of_addr_nack 0xA1 [5 % 256] 1 _ (by decide)]
      rfl,
    by decide, by decide⟩

/-! ## Register write as a buffer write -/

theorem i2c_tx_mod (d : Nat) (b : Bus) : i2c_tx (d % 256) b = i2c_tx d b := by
  unfold i2c_tx
  rw [Nat.mod_mod]

theorem i2c_write_regs_loop_eq (reg : Nat) (values : List Nat) (n i : Nat) (b : Bus) :
    i2c_write_regs_loop values n i b = i2c_write_buf_loop (reg :: values) n (i + 1) b := by
  induction n generalizing i b with
  | zero => rw [i2c_write_regs_loop, i2c_write_buf_loop]
  | succ n ih =>
    rw [i2c_write_regs_loop, i2c_write_buf_loop, List.getElem?_cons_succ]
    cases values[i]? with
    | none => rfl
    | some v =>
      simp only
      rw [ih]

/-- **C12** (register write as one buffer write).  For `len ≥ 0`,
`i2c_write_regs(Port, ADR, reg_nr, values, len)` gives the same result as
`i2c_write_buf(Port, ADR, [reg_nr] ++ values, len+1)`: the same returned value
and the same bus, hence the same sequence of line writes, delays and line
reads.  `i2c_write_reg(Port, ADR, reg_nr, v)` is the case `values = [v]`. -/
theorem i2c_write_regs_eq_write_buf (ADR reg_nr : Nat) (values : List Nat) (len : Int)
    (b : Bus) (h0 : 0 ≤ len) :
    i2c_write_regs ADR reg_nr values len b
        = i2c_write_buf ADR ([reg_nr] ++ values) (len + 1) b ∧
      ∀ v, i2c_write_reg ADR reg_nr v b = i2c_write_regs ADR reg_nr [v] 1 b := by
  have main : ∀ (vals : List Nat) (l : Int), 0 ≤ l →
      i2c_write_regs ADR reg_nr vals l b = i2c_write_buf ADR ([reg_nr] ++ vals) (l + 1) b := by
    intro vals l hl
    unfold i2c_write_regs i2c_write_buf
    simp only
    rw [show (l + 1).toNat = l.toNat + 1 by omega, i2c_write_buf_loop]
    simp only [List.singleton_append, List.getElem?_cons_zero]
    rw [i2c_write_regs_loop_eq reg_nr]
  refine ⟨main values len h0, ?_⟩
  intro v
  rw [main [v] 1 (by decide)]
  unfold i2c_write_reg i2c_write_buf
  simp only
  rw [show ((1 : Int) + 1).toNat = 2 from rfl, show (2 : Int).toNat = 2 from rfl]
  simp only [i2c_write_buf_loop, List.singleton_append, List.getElem?_cons_zero,
    List.getElem?_cons_succ, i2c_tx_mod]

/-- Instance of C12: two values written to register 5. -/
theorem i2c_write_regs_eq_write_buf_witness :
    i2c_write_regs 0xA0 5 [1, 2] 2 (idleBus (fun _ => 1) (fun _ => 0))
        = i2c_write_buf 0xA0 ([5] ++ [1, 2]) (2 + 1) (idleBus (fun _ => 1) (fun _ => 0)) ∧
      ∀ v, i2c_write_reg 0xA0 5 v (idleBus (fun _ => 1) (fun _ => 0))
        = i2c_write_regs 0xA0 5 [v] 1 (idleBus (fun _ => 1) (fun _ => 0)) :=
  i2c_write_regs_eq_write_buf 0xA0 5 [1, 2] 2 (idleBus (fun _ => 1) (fun _ => 0)) (by decide)

/-! ## Shape of a transmitted byte -/

set_option maxRecDepth 100000 in
theorem tx_loop_events_bits : ∀ d < 256, tx_loop_events 8 d
    = (List.range 8).flatMap fun i : Nat =>
        [Ev.setSda ((d >>> (7 - i)) &&& 1), Ev.delay 5, Ev.setScl 1, Ev.delay 5, Ev.setScl 0] := by
  decide

/-- **C14** (byte transmission).  For every byte `d`, the events of `i2c_tx`
are: for each of the bits `(d >> 7) & 1`, ..., `d & 1` in that order the SDA
write of the bit, a delay and one SCL pulse (write 1, delay, write 0); then
the SDA write of 1, two delays, the single SDA read, and the ninth SCL pulse.
SDA is written exactly 9 times and read exactly once, SCL is never read, and
the result is 1 when that reading is 0 and 0 otherwise. -/
theorem i2c_tx_shape (d : Nat) (hd : d < 256) (b : Bus) :
    newEvents b (i2c_tx d b).2
        = ((List.range 8).flatMap fun i : Nat =>
            [Ev.setSda ((d >>> (7 - i)) &&& 1), Ev.delay 5, Ev.setScl 1, Ev.delay 5,
              Ev.setScl 0])
          ++ [Ev.setSda 1, Ev.delay 5, Ev.delay 5, Ev.getSda (b.sdaIn b.sdaReads % 256),
              Ev.setScl 1, Ev.delay 5, Ev.setScl 0, Ev.delay 5] ∧
      sdaWrites (newEvents b (i2c_tx d b).2)
        = ((List.range 8).map fun i : Nat => (d >>> (7 - i)) &&& 1) ++ [1] ∧
      lineReads (newEvents b (i2c_tx d b).2) = [Ev.getSda (b.sdaIn b.sdaReads % 256)] ∧
      (i2c_tx d b).1 = (if b.sdaIn b.sdaReads % 256 = 0 then 1 else 0) := by
  have hev := newEvents_append b _ _ (i2c_tx_trace d b)
  have hshape : tx_events d (b.sdaIn b.sdaReads % 256)
      = ((List.range 8).flatMap fun i : Nat =>
            [Ev.setSda ((d >>> (7 - i)) &&& 1), Ev.delay 5, Ev.setScl 1, Ev.delay 5,
              Ev.setScl 0])
          ++ [Ev.setSda 1, Ev.delay 5, Ev.delay 5, Ev.getSda (b.sdaIn b.sdaReads % 256),
              Ev.setScl 1, Ev.delay 5, Ev.setScl 0, Ev.delay 5] := by
    unfold tx_events
    rw [Nat.mod_eq_of_lt hd, tx_loop_events_bits d hd]
  refine ⟨by rw [hev, hshape], ?_, ?_, i2c_tx_result d b⟩
  · rw [hev, hshape, sdaWrites_append]
    simp [sdaWrites, List.range_succ, List.flatMap]
  · rw [hev]
    exact lineReads_tx_events _ _

/-- Instance of C14: the byte `0xA5` with an acknowledging peripheral. -/
theorem i2c_tx_shape_witness :
    sdaWrites (newEvents (idleBus (fun _ => 1) (fun _ => 0))
        (i2c_tx 0xA5 (idleBus (fun _ => 1) (fun _ => 0))).2)
      = ((List.range 8).map fun i : Nat => (0xA5 >>> (7 - i)) &&& 1) ++ [1] ∧
    (i2c_tx 0xA5 (idleBus (fun _ => 1) (fun _ => 0))).1
      = (if (idleBus (fun _ => 1) (fun _ => 0)).sdaIn
            (idleBus (fun _ => 1) (fun _ => 0)).sdaReads % 256 = 0 then 1 else 0) :=
  ⟨(i2c_tx_shape 0xA5 (by decide) (idleBus (fun _ => 1) (fun _ => 0))).2.1,
    (i2c_tx_shape 0xA5 (by decide) (idleBus (fun _ => 1) (fun _ => 0))).2.2.2⟩

/-! ## Value of a received byte -/

/-- **C15** (byte reception).  For every eight SDA samples `s0..s7`, each 0 or
1, with SCL reading released and for every `ack` argument, `i2c_rx` returns
`s0*128 + s1*64 + s2*32 + s3*16 + s4*8 + s5*4 + s6*2 + s7`; the `ack`
argument does not occur in the result. -/
theorem i2c_rx_msb_first (fuel ack : Nat) (b : Bus)
    (hscl : ∀ k, b.sclIn k % 256 ≠ 0)
    (hbits : ∀ j, j < 8 → b.sdaIn (b.sdaReads + j) ≤ 1) :
    ∃ c, i2c_rx (fuel + 1) ack b
      = some (b.sdaIn b.sdaReads * 128 + b.sdaIn (b.sdaReads + 1) * 64
          + b.sdaIn (b.sdaReads + 2) * 32 + b.sdaIn (b.sdaReads + 3) * 16
          + b.sdaIn (b.sdaReads + 4) * 8 + b.sdaIn (b.sdaReads + 5) * 4
          + b.sdaIn (b.sdaReads + 6) * 2 + b.sdaIn (b.sdaReads + 7), c) := by
  obtain ⟨r, hr⟩ := i2c_rx_returns fuel ack b hscl
  obtain ⟨h1, -⟩ := i2c_rx_spec _ _ _ _ hr
  refine ⟨r.2, ?_⟩
  rw [hr]
  have hv : r.1 = b.sdaIn b.sdaReads * 128 + b.sdaIn (b.sdaReads + 1) * 64
          + b.sdaIn (b.sdaReads + 2) * 32 + b.sdaIn (b.sdaReads + 3) * 16
          + b.sdaIn (b.sdaReads + 4) * 8 + b.sdaIn (b.sdaReads + 5) * 4
          + b.sdaIn (b.sdaReads + 6) * 2 + b.sdaIn (b.sdaReads + 7) := by
    rw [h1, rx_value_bits b.sdaIn 8 b.sdaReads 0 0 (by decide) (by decide) hbits]
    simp only [List.range', List.map_cons, List.map_nil, List.foldl_cons, List.foldl_nil,
      Nat.add_assoc, Nat.reduceAdd]
    omega
  rw [← hv]

/-- Instance of C15: the samples `1,0,1,0,0,1,0,1`. -/
theorem i2c_rx_msb_first_witness :
    ∃ c, i2c_rx (0 + 1) 0 (idleBus (fun _ => 1) (fun k => [1, 0, 1, 0, 0, 1, 0, 1].getD k 0))
      = some (0xA5, c) :=
  i2c_rx_msb_first 0 0 (idleBus (fun _ => 1) (fun k => [1, 0, 1, 0, 0, 1, 0, 1].getD k 0))
    (by intro k; show 1 % 256 ≠ 0; decide)
    (by intro j hj; interval_cases j <;> decide)

theorem lor_mod_byte (a s : Nat) :
    ((a % 256) ||| (s % 256)) % 256 = (a ||| (s % 256)) % 256 := by
  apply Nat.eq_of_testBit_eq
  intro i
  rw [show (256 : Nat) = 2 ^ 8 from rfl]
  simp only [Nat.testBit_mod_two_pow, Nat.testBit_or]
  by_cases h : i < 8 <;> simp [h]

theorem rx_value_unmasked (sdaIn : Nat → Nat) (n k d : Nat) :
    rx_value sdaIn n k d = ((List.range' k n).map fun j => sdaIn j % 256).foldl
      (fun d s => ((d <<< 1) ||| s) % 256) d := by
  induction n generalizing k d with
  | zero => simp [rx_value]
  | succ n ih =>
    rw [rx_value, ih, List.range'_succ, List.map_cons, List.foldl_cons, lor_mod_byte]

set_option maxRecDepth 100000 in
theorem rx_last_ff : ∀ d < 256, ((d <<< 1) ||| 255) % 256 = 255 := by
  decide

/-- **C20** (no masking of the SDA reading).  With SCL reading released,
`i2c_rx` returns `d8` where `d0 = 0` and `d(i+1) = ((d(i) << 1) | s(i)) mod
256` for the eight SDA register readings `s0..s7` (each a `uint8_t`).  When
every reading is 0 or 1 this is the most-significant-bit-first value of the
readings' low bits; when the last reading is `0xFF` the result is `0xFF`
whatever the other readings are, and there is a run where the result differs
from the most-significant-bit-first value of the low bits. -/
theorem i2c_rx_unmasked (fuel ack : Nat) (b : Bus) (hscl : ∀ k, b.sclIn k % 256 ≠ 0) :
    (∃ c, i2c_rx (fuel + 1) ack b
      = some (((List.range' b.sdaReads 8).map fun k => b.sdaIn k % 256).foldl
          (fun d s => ((d <<< 1) ||| s) % 256) 0, c)) ∧
    ((∀ j, j < 8 → b.sdaIn (b.sdaReads + j) ≤ 1) →
      ((List.range' b.sdaReads 8).map fun k => b.sdaIn k % 256).foldl
          (fun d s => ((d <<< 1) ||| s) % 256) 0
        = msbFirst ((List.range' b.sdaReads 8).map fun k => b.sdaIn k % 2)) ∧
    (b.sdaIn (b.sdaReads + 7) % 256 = 0xFF →
      ((List.range' b.sdaReads 8).map fun k => b.sdaIn k % 256).foldl
          (fun d s => ((d <<< 1) ||| s) % 256) 0 = 0xFF) ∧
    (∃ r c, i2c_rx 1 0 (idleBus (fun _ => 1) (fun k => if k = 7 then 0xFF else 0)) = some (r, c) ∧
      r ≠ msbFirst ((List.range' 0 8).map fun k => (if k = 7 then 0xFF else 0) % 2)) := by
  refine ⟨?_, ?_, ?_, ?_⟩
  · obtain ⟨r, hr⟩ := i2c_rx_returns fuel ack b hscl
    obtain ⟨h1, -⟩ := i2c_rx_spec _ _ _ _ hr
    exact ⟨r.2, by rw [hr, ← rx_value_unmasked, ← h1]⟩
  · intro hbits
    rw [← rx_value_unmasked, rx_value_bits b.sdaIn 8 b.sdaReads 0 0 (by decide) (by decide) hbits]
    unfold msbFirst
    congr 1
    apply List.map_congr_left
    intro k hk
    obtain ⟨hk1, hk2⟩ := List.mem_range'_1.mp hk
    have := hbits (k - b.sdaReads) (by omega)
    rw [show b.sdaReads + (k - b.sdaReads) = k by omega] at this
    omega
  · intro h7
    simp only [List.range', List.map_cons, List.map_nil, List.foldl_cons, List.foldl_nil,
      Nat.add_assoc, Nat.reduceAdd, h7]
    exact rx_last_ff _ (Nat.mod_lt _ (by decide))
  · exact ⟨(Option.get (i2c_rx 1 0 (idleBus (fun _ => 1)
        (fun k => if k = 7 then 0xFF else 0))) (by decide)).1,
      (Option.get (i2c_rx 1 0 (idleBus (fun _ => 1)
        (fun k => if k = 7 then 0xFF else 0))) (by decide)).2,
      (Option.some_get (by decide : (i2c_rx 1 0 (idleBus (fun _ => 1)
        (fun k => if k = 7 then 0xFF else 0))).isSome = true)).symm, by decide⟩

/-- Instance of C20: the readings `0,0,0,0,0,0,0,0xFF` give `0xFF`. -/
theorem i2c_rx_unmasked_witness :
    ∃ c, i2c_rx (0 + 1) 0 (idleBus (fun _ => 1) (fun k => if k = 7 then 0xFF else 0))
      = some (((List.range' (idleBus (fun _ => 1) (fun k => if k = 7 then 0xFF else 0)).sdaReads
          8).map fun k =>
            (idleBus (fun _ => 1) (fun k => if k = 7 then 0xFF else 0)).sdaIn k % 256).foldl
          (fun d s => ((d <<< 1) ||| s) % 256) 0, c) :=
  (i2c_rx_unmasked 0 0 (idleBus (fun _ => 1) (fun k => if k = 7 then 0xFF else 0))
    (by intro k; show 1 % 256 ≠ 0; decide)).1

/-! ## Clock stretching -/

theorem i2c_rx_wait_stretch (N : Nat) : ∀ (fuel : Nat) (b : Bus), N < fuel →
    (∀ j, j < N → b.sclIn (b.sclReads + j) % 256 = 0) →
    b.sclIn (b.sclReads + N) % 256 ≠ 0 →
    ∃ c, i2c_rx_wait fuel b = some c ∧
      c.trace = b.trace ++ (List.replicate N (Ev.getScl 0)
        ++ [Ev.getScl (b.sclIn (b.sclReads + N) % 256)]) ∧
      c.sclReads = b.sclReads + (N + 1) ∧ c.sclIn = b.sclIn ∧
      c.sdaIn = b.sdaIn ∧ c.sdaReads = b.sdaReads := by
  induction N with
  | zero =>
    intro fuel b hf _ hhigh
    obtain ⟨f, rfl⟩ : ∃ f, fuel = f + 1 := ⟨fuel - 1, by omega⟩
    rw [Nat.add_zero] at hhigh
    refine ⟨(i2c_get_scl b).2, i2c_rx_wait_released f b hhigh, ?_, ?_, ?_, ?_, ?_⟩ <;>
      simp [i2c_get_scl]
  | succ N ih =>
    intro fuel b hf hlow hhigh
    obtain ⟨f, rfl⟩ : ∃ f, fuel = f + 1 := ⟨fuel - 1, by omega⟩
    have h0 : b.sclIn b.sclReads % 256 = 0 := by simpa using hlow 0 (by omega)
    have hg : (i2c_get_scl b).2.sclReads = b.sclReads + 1 ∧ (i2c_get_scl b).2.sclIn = b.sclIn ∧
        (i2c_get_scl b).2.sdaIn = b.sdaIn ∧ (i2c_get_scl b).2.sdaReads = b.sdaReads ∧
        (i2c_get_scl b).2.trace = b.trace ++ [Ev.getScl 0] := by
      simp [i2c_get_scl, h0]
    obtain ⟨g1, g2, g3, g4, g5⟩ := hg
    obtain ⟨c, hc, t1, t2, t3, t4, t5⟩ := ih f (i2c_get_scl b).2 (by omega)
      (by
        intro j hj
        rw [g1, g2, show b.sclReads + 1 + j = b.sclReads + (j + 1) by omega]
        exact hlow (j + 1) (by omega))
      (by
        rw [g1, g2, show b.sclReads + 1 + N = b.sclReads + (N + 1) by omega]
        exact hhigh)
    refine ⟨c, ?_, ?_, ?_, ?_, ?_, ?_⟩
    · rw [i2c_rx_wait]
      have : (i2c_get_scl b).1 = 0 := h0
      simp only [this, if_true]
      exact hc
    · rw [t1, g1, g2, g5, show b.sclReads + 1 + N = b.sclReads + (N + 1) by omega]
      simp [List.replicate_succ]
    · rw [t2, g1]; omega
    · rw [t3, g2]
    · rw [t4, g3]
    · rw [t5, g4]

/-- **C13** (clock-stretch accommodation).  For every `N`, when during the
reception of one bit SCL reads 0 on the first `N` polls and nonzero on poll
`N + 1`, the reception of that bit returns (any poll budget above `N`
suffices); its events are SCL=1, a delay, the `N` polls reading 0, the poll
reading nonzero, then the single SDA read, then SCL=0 and a delay; so SCL is
read exactly `N + 1` times, SDA once and only after the nonzero SCL reading,
and the bit or-ed into the shifted result is that SDA reading. -/
theorem i2c_rx_bit_stretch (N fuel d : Nat) (b : Bus) (hfuel : N < fuel)
    (hlow : ∀ j, j < N → b.sclIn (b.sclReads + j) % 256 = 0)
    (hhigh : b.sclIn (b.sclReads + N) % 256 ≠ 0) :
    ∃ c, i2c_rx_loop fuel 1 d b
        = some ((((d <<< 1) % 256) ||| (b.sdaIn b.sdaReads % 256)) % 256, c) ∧
      newEvents b c = [Ev.setScl 1, Ev.delay 5] ++ List.replicate N (Ev.getScl 0)
        ++ [Ev.getScl (b.sclIn (b.sclReads + N) % 256), Ev.getSda (b.sdaIn b.sdaReads % 256),
            Ev.setScl 0, Ev.delay 5] ∧
      c.sclReads = b.sclReads + (N + 1) ∧ c.sdaReads = b.sdaReads + 1 := by
  have hb1 : (I2C_DLY (i2c_set_scl 1 b)).sclIn = b.sclIn ∧
      (I2C_DLY (i2c_set_scl 1 b)).sclReads = b.sclReads ∧
      (I2C_DLY (i2c_set_scl 1 b)).sdaIn = b.sdaIn ∧
      (I2C_DLY (i2c_set_scl 1 b)).sdaReads = b.sdaReads ∧
      (I2C_DLY (i2c_set_scl 1 b)).trace = b.trace ++ [Ev.setScl 1, Ev.delay 5] := by
    simp [i2c_set_scl, I2C_DLY]
  obtain ⟨g1, g2, g3, g4, g5⟩ := hb1
  obtain ⟨w, hw, t1, t2, -, t4, t5⟩ := i2c_rx_wait_stretch N fuel (I2C_DLY (i2c_set_scl 1 b))
    hfuel (by rw [g1, g2]; exact hlow) (by rw [g1, g2]; exact hhigh)
  rw [g4] at t5
  rw [g3] at t4
  rw [g2] at t2
  rw [g5, g1, g2] at t1
  refine ⟨I2C_DLY (i2c_set_scl 0 (i2c_get_sda w).2), ?_, ?_, ?_, ?_⟩
  · rw [i2c_rx_loop]
    simp only [hw]
    rw [i2c_rx_loop]
    simp [i2c_get_sda, t4, t5]
  · apply newEvents_append
    simp [i2c_get_sda, i2c_set_scl, I2C_DLY, t1, t4, t5]
  · simp [i2c_get_sda, i2c_set_scl, I2C_DLY, t2]
  · simp [i2c_get_sda, i2c_set_scl, I2C_DLY, t5]

/-- Instance of C13: the peripheral holds SCL low for three polls. -/
theorem i2c_rx_bit_stretch_witness :
    ∃ c, i2c_rx_loop 4 1 0 (idleBus (fun k => if k < 3 then 0 else 1) (fun _ => 1))
        = some ((((0 <<< 1) % 256) ||| ((idleBus (fun k => if k < 3 then 0 else 1)
            (fun _ => 1)).sdaIn (idleBus (fun k => if k < 3 then 0 else 1)
              (fun _ => 1)).sdaReads % 256)) % 256, c) ∧
      newEvents (idleBus (fun k => if k < 3 then 0 else 1) (fun _ => 1)) c
        = [Ev.setScl 1, Ev.delay 5] ++ List.replicate 3 (Ev.getScl 0)
          ++ [Ev.getScl ((idleBus (fun k => if k < 3 then 0 else 1) (fun _ => 1)).sclIn
                ((idleBus (fun k => if k < 3 then 0 else 1) (fun _ => 1)).sclReads + 3) % 256),
              Ev.getSda ((idleBus (fun k => if k < 3 then 0 else 1) (fun _ => 1)).sdaIn
                (idleBus (fun k => if k < 3 then 0 else 1) (fun _ => 1)).sdaReads % 256),
              Ev.setScl 0, Ev.delay 5] ∧
      c.sclReads = (idleBus (fun k => if k < 3 then 0 else 1) (fun _ => 1)).sclReads + (3 + 1) ∧
      c.sdaReads = (idleBus (fun k => if k < 3 then 0 else 1) (fun _ => 1)).sdaReads + 1 :=
  i2c_rx_bit_stretch 3 4 0 (idleBus (fun k => if k < 3 then 0 else 1) (fun _ => 1))
    (by decide) (by intro j hj; interval_cases j <;> decide) (by decide)

/-! ## Direction bit of the address byte -/

theorem sclReadEvents_append (xs ys : List Ev) :
    sclReadEvents (xs ++ ys) = sclReadEvents xs ++ sclReadEvents ys := by
  simp [sclReadEvents, List.filter_append]

theorem tx_loop_events_length (x d : Nat) : (tx_loop_events x d).length = 5 * x := by
  induction x generalizing d with
  | zero => rfl
  | succ x ih =>
    rw [tx_loop_events, List.length_append, ih]
    simp only [List.length_cons, List.length_nil]
    omega

theorem tx_events_length (d v : Nat) : (tx_events d v).length = 48 := by
  unfold tx_events
  rw [List.length_append, tx_loop_events_length]
  rfl

theorem sclReadEvents_tx_loop_events (x d : Nat) : sclReadEvents (tx_loop_events x d) = [] := by
  induction x generalizing d with
  | zero => rfl
  | succ x ih =>
    rw [tx_loop_events, sclReadEvents_append, ih]
    rfl

theorem sclReadEvents_tx_events (d v : Nat) : sclReadEvents (tx_events d v) = [] := by
  unfold tx_events
  rw [sclReadEvents_append, sclReadEvents_tx_loop_events]
  rfl

theorem i2c_write_buf_loop_bounded (data : List Nat) (n i : Nat) (b : Bus)
    (h : i + n ≤ data.length) :
    ∃ r evs, i2c_write_buf_loop data n i b = some r ∧ r.2.trace = b.trace ++ evs ∧
      evs.length ≤ 6 + 48 * n ∧ sclReadEvents evs = [] ∧
      r.2.sclReads = b.sclReads ∧ r.2.sdaReads ≤ b.sdaReads + n := by
  induction n generalizing i b with
  | zero =>
    refine ⟨(1, i2c_stop b), stopEvents, by rw [i2c_write_buf_loop], i2c_stop_trace b,
      by decide, by decide, (i2c_stop_inputs b).2.2.2, ?_⟩
    show (i2c_stop b).sdaReads ≤ _
    rw [(i2c_stop_inputs b).2.1]
    omega
  | succ n ih =>
    have hi : i < data.length := by omega
    rw [i2c_write_buf_loop, List.getElem?_eq_getElem hi]
    simp only
    by_cases hr : (i2c_tx data[i] b).1 = 0
    · simp only [hr, if_true]
      refine ⟨_, tx_events data[i] (b.sdaIn b.sdaReads % 256) ++ stopEvents, rfl, ?_, ?_, ?_,
        ?_, ?_⟩
      · show (i2c_stop _).trace = _
        rw [i2c_stop_trace, i2c_tx_trace, List.append_assoc]
      · rw [List.length_append, tx_events_length]
        simp only [stopEvents, List.length_cons, List.length_nil]
        omega
      · rw [sclReadEvents_append, sclReadEvents_tx_events]
        rfl
      · show (i2c_stop _).sclReads = _
        rw [(i2c_stop_inputs _).2.2.2, (i2c_tx_inputs _ _).2.2.2]
      · show (i2c_stop _).sdaReads ≤ _
        rw [(i2c_stop_inputs _).2.1, (i2c_tx_inputs _ _).2.1]
        omega
    · simp only [hr, if_false]
      obtain ⟨r, evs, e1, e2, e3, e4, e5, e6⟩ := ih (i + 1) (i2c_tx data[i] b).2 (by omega)
      refine ⟨r, tx_events data[i] (b.sdaIn b.sdaReads % 256) ++ evs, e1, ?_, ?_, ?_, ?_, ?_⟩
      · rw [e2, i2c_tx_trace, List.append_assoc]
      · rw [List.length_append, tx_events_length]
        omega
      · rw [sclReadEvents_append, sclReadEvents_tx_events, e4]
        rfl
      · rw [e5, (i2c_tx_inputs _ _).2.2.2]
      · rw [(i2c_tx_inputs _ _).2.1] at e6
        omega

theorem i2c_write_buf_bounded (ADR : Nat) (data : List Nat) (len : Int) (b : Bus)
    (h : len ≤ data.length) :
    ∃ r, i2c_write_buf ADR data len b = some r ∧
      (newEvents b r.2).length ≤ 14 + 48 * (len.toNat + 1) ∧
      sclReadEvents (newEvents b r.2) = [] ∧
      r.2.sclReads = b.sclReads ∧ r.2.sdaReads ≤ b.sdaReads + (len.toNat + 1) := by
  have ht : (i2c_tx ADR (i2c_start b)).2.trace
      = b.trace ++ (startEvents ++ tx_events ADR (b.sdaIn b.sdaReads % 256)) := by
    rw [i2c_tx_trace, i2c_start_trace, (i2c_start_inputs b).1, (i2c_start_inputs b).2.1,
      List.append_assoc]
  have hlen : (startEvents ++ tx_events ADR (b.sdaIn b.sdaReads % 256)).length = 56 := by
    rw [List.length_append, tx_events_length]
    rfl
  have hscl : sclReadEvents (startEvents ++ tx_events ADR (b.sdaIn b.sdaReads % 256)) = [] := by
    rw [sclReadEvents_append, sclReadEvents_tx_events]
    rfl
  unfold i2c_write_buf
  simp only
  by_cases hr : (i2c_tx ADR (i2c_start b)).1 = 0
  · simp only [hr, if_true]
    refine ⟨_, rfl, ?_, ?_, ?_, ?_⟩
    · rw [newEvents_append b _ ((startEvents ++ tx_events ADR (b.sdaIn b.sdaReads % 256))
        ++ stopEvents) (by
          show (i2c_stop _).trace = _
          rw [i2c_stop_trace, ht, List.append_assoc]), List.length_append, hlen]
      simp only [stopEvents, List.length_cons, List.length_nil]
      omega
    · rw [newEvents_append b _ ((startEvents ++ tx_events ADR (b.sdaIn b.sdaReads % 256))
        ++ stopEvents) (by
          show (i2c_stop _).trace = _
          rw [i2c_stop_trace, ht, List.append_assoc]), sclReadEvents_append, hscl]
      rfl
    · show (i2c_stop _).sclReads = _
      rw [(i2c_stop_inputs _).2.2.2, (i2c_tx_inputs _ _).2.2.2, (i2c_start_inputs b).2.2.2]
    · show (i2c_stop _).sdaReads ≤ _
      rw [(i2c_stop_inputs _).2.1, (i2c_tx_inputs _ _).2.1, (i2c_start_inputs b).2.1]
      omega
  · simp only [hr, if_false]
    obtain ⟨r, evs, e1, e2, e3, e4, e5, e6⟩ :=
      i2c_write_buf_loop_bounded data len.toNat 0 (i2c_tx ADR (i2c_start b)).2 (by omega)
    refine ⟨r, e1, ?_, ?_, ?_, ?_⟩
    · rw [newEvents_append b _ ((startEvents ++ tx_events ADR (b.sdaIn b.sdaReads % 256))
        ++ evs) (by rw [e2, ht, List.append_assoc]), List.length_append, hlen]
      omega
    · rw [newEvents_append b _ ((startEvents ++ tx_events ADR (b.sdaIn b.sdaReads % 256))
        ++ evs) (by rw [e2, ht, List.append_assoc]), sclReadEvents_append, hscl, e4]
      rfl
    · rw [e5, (i2c_tx_inputs _ _).2.2.2, (i2c_start_inputs b).2.2.2]
    · rw [(i2c_tx_inputs _ _).2.1, (i2c_start_inputs b).2.1] at e6
      omega

theorem i2c_init_trace (b : Bus) :
    (i2c_init b).trace = b.trace ++ [Ev.setSda 1, Ev.setScl 1, Ev.delay 5] := by
  simp [i2c_init, i2c_set_sda, i2c_set_scl, I2C_DLY]

theorem i2c_write_regs_as_write_buf (ADR reg_nr : Nat) (values : List Nat) (len : Int)
    (b : Bus) (h0 : 0 ≤ len) :
    i2c_write_regs ADR reg_nr values len b
      = i2c_write_buf ADR (reg_nr :: values) (len + 1) b := by
  unfold i2c_write_regs i2c_write_buf
  simp only
  rw [show (len + 1).toNat = len.toNat + 1 by omega, i2c_write_buf_loop]
  simp only [List.getElem?_cons_zero]
  rw [i2c_write_regs_loop_eq reg_nr]

theorem i2c_rx_wait_stuck (fuel : Nat) (b : Bus) (h : ∀ k, b.sclIn k % 256 = 0) :
    i2c_rx_wait fuel b = none := by
  induction fuel generalizing b with
  | zero => rfl
  | succ fuel ih =>
    rw [i2c_rx_wait]
    have : (i2c_get_scl b).1 = 0 := h _
    simp only [this, if_true]
    exact ih _ (by simpa [i2c_get_scl] using h)

theorem i2c_rx_stuck (fuel ack : Nat) (b : Bus) (h : ∀ k, b.sclIn k % 256 = 0) :
    i2c_rx fuel ack b = none := by
  unfold i2c_rx
  simp only
  rw [i2c_rx_loop]
  simp only
  rw [i2c_rx_wait_stuck fuel _ (by simpa [i2c_set_sda, i2c_set_scl, I2C_DLY] using h)]

/-- **C17** (only the clock-stretch poll is unbounded).  The write-path
operations `i2c_init`, `i2c_start`, `i2c_stop`, `i2c_tx`, `i2c_write_buf`,
`i2c_write_reg_nr`, `i2c_write_reg` and `i2c_write_regs` return for every
input with `len ≥ 0` (and buffers of at least `len` entries) and every
sequence of line readings; they never read SCL; the number of their bus events
is bounded by a function of `len` alone; `i2c_tx` reads SDA exactly once and
`i2c_write_buf` at most `len + 1` times.  `i2c_rx`, on the other hand, does
not return within any poll budget while SCL keeps reading 0. -/
theorem write_path_bounded (ADR reg_nr value d : Nat) (data values : List Nat) (len : Int)
    (b : Bus) (h0 : 0 ≤ len) (hd : len ≤ data.length) (hv : len ≤ values.length) :
    ((newEvents b (i2c_init b)).length = 3 ∧ sclReadEvents (newEvents b (i2c_init b)) = []) ∧
    ((newEvents b (i2c_start b)).length = 8 ∧ sclReadEvents (newEvents b (i2c_start b)) = []) ∧
    ((newEvents b (i2c_stop b)).length = 6 ∧ sclReadEvents (newEvents b (i2c_stop b)) = []) ∧
    ((newEvents b (i2c_tx d b).2).length = 48 ∧
      sclReadEvents (newEvents b (i2c_tx d b).2) = [] ∧
      (i2c_tx d b).2.sdaReads = b.sdaReads + 1) ∧
    (∃ r, i2c_write_buf ADR data len b = some r ∧
      (newEvents b r.2).length ≤ 14 + 48 * (len.toNat + 1) ∧
      sclReadEvents (newEvents b r.2) = [] ∧
      r.2.sdaReads ≤ b.sdaReads + (len.toNat + 1)) ∧
    (∃ r, i2c_write_reg_nr ADR reg_nr b = some r ∧
      (newEvents b r.2).length ≤ 14 + 48 * 2 ∧ sclReadEvents (newEvents b r.2) = []) ∧
    (∃ r, i2c_write_reg ADR reg_nr value b = some r ∧
      (newEvents b r.2).length ≤ 14 + 48 * 3 ∧ sclReadEvents (newEvents b r.2) = []) ∧
    (∃ r, i2c_write_regs ADR reg_nr values len b = some r ∧
      (newEvents b r.2).length ≤ 14 + 48 * (len.toNat + 2) ∧
      sclReadEvents (newEvents b r.2) = []) ∧
    (∀ (fuel ack : Nat) (c : Bus), (∀ k, c.sclIn k % 256 = 0) → i2c_rx fuel ack c = none) := by
  refine ⟨?_, ?_, ?_, ?_, ?_, ?_, ?_, ?_, fun fuel ack c hc => i2c_rx_stuck fuel ack c hc⟩
  · rw [newEvents_append b _ _ (i2c_init_trace b)]
    exact ⟨rfl, rfl⟩
  · rw [newEvents_append b _ _ (i2c_start_trace b)]
    exact ⟨rfl, rfl⟩
  · rw [newEvents_append b _ _ (i2c_stop_trace b)]
    exact ⟨rfl, rfl⟩
  · rw [newEvents_append b _ _ (i2c_tx_trace d b)]
    exact ⟨tx_events_length _ _, sclReadEvents_tx_events _ _, (i2c_tx_inputs d b).2.1⟩
  · obtain ⟨r, e1, e2, e3, -, e5⟩ := i2c_write_buf_bounded ADR data len b hd
    exact ⟨r, e1, e2, e3, e5⟩
  · obtain ⟨r, e1, e2, e3, -, -⟩ := i2c_write_buf_bounded ADR [reg_nr % 256] 1 b (by simp)
    exact ⟨r, e1, e2, e3⟩
  · obtain ⟨r, e1, e2, e3, -, -⟩ :=
      i2c_write_buf_bounded ADR [reg_nr % 256, value % 256] 2 b (by simp)
    exact ⟨r, e1, e2, e3⟩
  · obtain ⟨r, e1, e2, e3, -, -⟩ :=
      i2c_write_buf_bounded ADR (reg_nr :: values) (len + 1) b (by
        simp only [List.length_cons]; omega)
    rw [← i2c_write_regs_as_write_buf ADR reg_nr values len b h0] at e1
    rw [show (len + 1).toNat + 1 = len.toNat + 2 by omega] at e2
    exact ⟨r, e1, e2, e3⟩

/-- Instance of C17: a three-byte payload that nobody acknowledges after the
address. -/
theorem write_path_bounded_witness :
    ∃ r, i2c_write_buf 0xA0 [1, 2, 3] 3 (idleBus (fun _ => 0) (fun k => if k = 0 then 0 else 1))
        = some r ∧
      (newEvents (idleBus (fun _ => 0) (fun k => if k = 0 then 0 else 1)) r.2).length
        ≤ 14 + 48 * ((3 : Int).toNat + 1) ∧
      sclReadEvents (newEvents (idleBus (fun _ => 0) (fun k => if k = 0 then 0 else 1)) r.2)
        = [] ∧
      r.2.sdaReads
        ≤ (idleBus (fun _ => 0) (fun k => if k = 0 then 0 else 1)).sdaReads
          + ((3 : Int).toNat + 1) :=
  (write_path_bounded 0xA0 5 7 0xA5 [1, 2, 3] [4, 5, 6] 3
    (idleBus (fun _ => 0) (fun k => if k = 0 then 0 else 1))
    (by decide) (by decide) (by decide)).2.2.2.2.1

/-! ## Shape of the traces -/

theorem i2c_rx_wait_shape (fuel : Nat) (b c : Bus) (h : i2c_rx_wait fuel b = some c) :
    ∃ polls : List Nat, c.trace = b.trace ++ polls.map Ev.getScl := by
  induction fuel generalizing b with
  | zero => simp [i2c_rx_wait] at h
  | succ fuel ih =>
    rw [i2c_rx_wait] at h
    by_cases hv : (i2c_get_scl b).1 = 0
    · simp only [hv, if_true] at h
      obtain ⟨polls, he⟩ := ih _ h
      exact ⟨(b.sclIn b.sclReads % 256) :: polls, by rw [he]; simp [i2c_get_scl]⟩
    · simp only [hv, if_false, Option.some.injEq] at h
      exact ⟨[b.sclIn b.sclReads % 256], by rw [← h]; simp [i2c_get_scl]⟩

theorem i2c_rx_loop_shape (fuel n d : Nat) (b : Bus) (r : Nat × Bus)
    (h : i2c_rx_loop fuel n d b = some r) :
    ∃ bits : List (List Nat × Nat), bits.length = n ∧
      r.2.trace = b.trace ++ bits.flatMap (fun p => rx_bit_events p.1 p.2) := by
  induction n generalizing d b with
  | zero =>
    simp only [i2c_rx_loop, Option.some.injEq] at h
    exact ⟨[], rfl, by rw [← h]; simp⟩
  | succ n ih =>
    rw [i2c_rx_loop] at h
    simp only at h
    split at h
    · exact absurd h (by simp)
    · rename_i c hc
      obtain ⟨polls, he1⟩ := i2c_rx_wait_shape _ _ _ hc
      obtain ⟨bits, hl, he2⟩ := ih _ _ h
      refine ⟨(polls, c.sdaIn c.sdaReads % 256) :: bits, by simp [hl], ?_⟩
      rw [he2]
      simp [i2c_get_sda, i2c_set_scl, I2C_DLY, he1, rx_bit_events]

theorem i2c_rx_shape (fuel ack : Nat) (b : Bus) (r : Nat × Bus)
    (h : i2c_rx fuel ack b = some r) :
    ∃ bits : List (List Nat × Nat), bits.length = 8 ∧
      r.2.trace = b.trace ++ rx_events bits ack := by
  unfold i2c_rx at h
  simp only at h
  split at h
  · exact absurd h (by simp)
  · rename_i d c hc
    obtain ⟨bits, hl, he⟩ := i2c_rx_loop_shape _ _ _ _ _ hc
    simp only [Option.some.injEq] at h
    simp only at he
    refine ⟨bits, hl, ?_⟩
    rw [← h]
    by_cases ha : ack = 0
    · simp [ha, i2c_set_sda, i2c_set_scl, I2C_DLY, he, rx_events]
    · simp [ha, i2c_set_sda, i2c_set_scl, I2C_DLY, he, rx_events]

theorem i2c_write_buf_loop_shape (data : List Nat) (n i : Nat) (b : Bus) (r : Nat × Bus)
    (h : i2c_write_buf_loop data n i b = some r) :
    ∃ txs, r.2.trace = b.trace ++ (txs_events txs ++ stopEvents) := by
  induction n generalizing i b with
  | zero =>
    simp only [i2c_write_buf_loop, Option.some.injEq] at h
    exact ⟨[], by rw [← h, i2c_stop_trace]; rfl⟩
  | succ n ih =>
    rw [i2c_write_buf_loop] at h
    split at h
    · exact absurd h (by simp)
    · rename_i v _
      by_cases hr : (i2c_tx v b).1 = 0
      · simp only [hr, if_true, Option.some.injEq] at h
        exact ⟨[(v, b.sdaIn b.sdaReads % 256)], by
          rw [← h, i2c_stop_trace, i2c_tx_trace]
          simp [txs_events]⟩
      · simp only [hr, if_false] at h
        obtain ⟨txs, he⟩ := ih _ _ h
        exact ⟨(v, b.sdaIn b.sdaReads % 256) :: txs, by
          rw [he, i2c_tx_trace]
          simp [txs_events]⟩

theorem i2c_write_buf_shape (ADR : Nat) (data : List Nat) (len : Int) (b : Bus)
    (r : Nat × Bus) (h : i2c_write_buf ADR data len b = some r) :
    ∃ txs, r.2.trace = b.trace ++ transaction_events txs [] := by
  have ht : (i2c_tx ADR (i2c_start b)).2.trace
      = b.trace ++ (startEvents ++ tx_events ADR (b.sdaIn b.sdaReads % 256)) := by
    rw [i2c_tx_trace, i2c_start_trace, (i2c_start_inputs b).1, (i2c_start_inputs b).2.1,
      List.append_assoc]
  unfold i2c_write_buf at h
  by_cases hr : (i2c_tx ADR (i2c_start b)).1 = 0
  · simp only [hr, if_true, Option.some.injEq] at h
    exact ⟨[(ADR, b.sdaIn b.sdaReads % 256)], by
      rw [← h, i2c_stop_trace, ht]
      simp [transaction_events, txs_events, rxs_events]⟩
  · simp only [hr, if_false] at h
    obtain ⟨txs, he⟩ := i2c_write_buf_loop_shape _ _ _ _ _ h
    exact ⟨(ADR, b.sdaIn b.sdaReads % 256) :: txs, by
      rw [he, ht]
      simp [transaction_events, txs_events, rxs_events]⟩

theorem i2c_write_regs_shape (ADR reg_nr : Nat) (values : List Nat) (len : Int) (b : Bus)
    (r : Nat × Bus) (h : i2c_write_regs ADR reg_nr values len b = some r) :
    ∃ txs, r.2.trace = b.trace ++ transaction_events txs [] := by
  have ht : (i2c_tx ADR (i2c_start b)).2.trace
      = b.trace ++ (startEvents ++ tx_events ADR (b.sdaIn b.sdaReads % 256)) := by
    rw [i2c_tx_trace, i2c_start_trace, (i2c_start_inputs b).1, (i2c_start_inputs b).2.1,
      List.append_assoc]
  unfold i2c_write_regs at h
  by_cases hr : (i2c_tx ADR (i2c_start b)).1 = 0
  · simp only [hr, if_true, Option.some.injEq] at h
    exact ⟨[(ADR, b.sdaIn b.sdaReads % 256)], by
      rw [← h, i2c_stop_trace, ht]
      simp [transaction_events, txs_events, rxs_events]⟩
  · simp only [hr, if_false] at h
    by_cases hq : (i2c_tx reg_nr (i2c_tx ADR (i2c_start b)).2).1 = 0
    · simp only [hq, if_true, Option.some.injEq] at h
      exact ⟨[(ADR, b.sdaIn b.sdaReads % 256), (reg_nr, (i2c_tx ADR (i2c_start b)).2.sdaIn
          (i2c_tx ADR (i2c_start b)).2.sdaReads % 256)], by
        rw [← h, i2c_stop_trace, i2c_tx_trace, ht]
        simp [transaction_events, txs_events, rxs_events]⟩
    · simp only [hq, if_false] at h
      rw [i2c_write_regs_loop_eq reg_nr] at h
      obtain ⟨txs, he⟩ := i2c_write_buf_loop_shape _ _ _ _ _ h
      exact ⟨(ADR, b.sdaIn b.sdaReads % 256) :: (reg_nr, (i2c_tx ADR (i2c_start b)).2.sdaIn
          (i2c_tx ADR (i2c_start b)).2.sdaReads % 256) :: txs, by
        rw [he, i2c_tx_trace, ht]
        simp [transaction_events, txs_events, rxs_events]⟩

theorem i2c_read_buf_loop_shape (fuel : Nat) (len : Int) (n i : Nat) (data : List Nat)
    (b : Bus) (r : Nat × List Nat × Bus)
    (h : i2c_read_buf_loop fuel len n i data b = some r) :
    ∃ rxs, r.2.2.trace = b.trace ++ (rxs_events rxs ++ stopEvents) := by
  induction n generalizing i data b with
  | zero =>
    simp only [i2c_read_buf_loop, Option.some.injEq] at h
    exact ⟨[], by rw [← h, i2c_stop_trace]; rfl⟩
  | succ n ih =>
    rw [i2c_read_buf_loop] at h
    split at h
    · exact absurd h (by simp)
    · rename_i d c hc
      split at h
      · obtain ⟨bits, -, he1⟩ := i2c_rx_shape _ _ _ _ hc
        obtain ⟨rxs, he2⟩ := ih _ _ _ h
        simp only at he1
        exact ⟨(bits, if (i : Int) ≠ len - 1 then 1 else 0) :: rxs, by
          rw [he2, he1]
          simp [rxs_events]⟩
      · exact absurd h (by simp)

theorem i2c_read_buf_shape (fuel ADR : Nat) (data : List Nat) (len : Int) (b : Bus)
    (r : Nat × List Nat × Bus) (h : i2c_read_buf fuel ADR data len b = some r) :
    ∃ txs rxs, r.2.2.trace = b.trace ++ transaction_events txs rxs := by
  have ht : (i2c_tx ((ADR % 256) ||| 1) (i2c_start b)).2.trace
      = b.trace ++ (startEvents ++ tx_events ((ADR % 256) ||| 1) (b.sdaIn b.sdaReads % 256)) := by
    rw [i2c_tx_trace, i2c_start_trace, (i2c_start_inputs b).1, (i2c_start_inputs b).2.1,
      List.append_assoc]
  unfold i2c_read_buf at h
  by_cases hr : (i2c_tx ((ADR % 256) ||| 1) (i2c_start b)).1 = 0
  · simp only [hr, if_true, Option.some.injEq] at h
    exact ⟨[((ADR % 256) ||| 1, b.sdaIn b.sdaReads % 256)], [], by
      rw [← h, i2c_stop_trace, ht]
      simp [transaction_events, txs_events, rxs_events]⟩
  · simp only [hr, if_false] at h
    obtain ⟨rxs, he⟩ := i2c_read_buf_loop_shape _ _ _ _ _ _ _ h
    exact ⟨[((ADR % 256) ||| 1, b.sdaIn b.sdaReads % 256)], rxs, by
      rw [he, ht]
      simp [transaction_events, txs_events, rxs_events]⟩

/-! ## SDA changes under a high clock -/

theorem sdaChangesSclHigh_append (xs ys : List Ev) (scl sda : Nat) :
    sdaChangesSclHigh scl sda (xs ++ ys)
      = sdaChangesSclHigh scl sda xs
        ++ sdaChangesSclHigh (linesAfter scl sda xs).1 (linesAfter scl sda xs).2 ys := by
  induction xs generalizing scl sda with
  | nil => simp [sdaChangesSclHigh, linesAfter]
  | cons e xs ih =>
    rw [List.cons_append]
    cases e <;> simp only [sdaChangesSclHigh, linesAfter] <;> rw [ih]
    rw [List.append_assoc]

theorem startConditions_eq_changes (scl sda : Nat) (tr : List Ev) :
    startConditions scl sda tr
      = ((sdaChangesSclHigh scl sda tr).filter fun p => decide (p.1 ≠ 0 ∧ p.2 = 0)).length := by
  induction tr generalizing scl sda with
  | nil => rfl
  | cons e tr ih =>
    cases e with
    | setSda v =>
      simp only [startConditions, sdaChangesSclHigh, List.filter_append, List.length_append, ih]
      congr 1
      by_cases hs : scl = 0
      · simp [hs]
      · by_cases hv : v = 0
        · by_cases hd : sda = 0
          · simp [hs, hv, hd]
          · have hne : ¬ (0 = sda) := fun h => hd h.symm
            simp [hs, hv, hd, hne]
        · by_cases hd : v = sda
          · simp [hs, hv, hd]
          · simp [hs, hv, hd]
    | setScl v => simp only [startConditions, sdaChangesSclHigh, ih]
    | getScl v => simp only [startConditions, sdaChangesSclHigh, ih]
    | getSda v => simp only [startConditions, sdaChangesSclHigh, ih]
    | delay v => simp only [startConditions, sdaChangesSclHigh, ih]

theorem stopConditions_eq_changes (scl sda : Nat) (tr : List Ev) :
    stopConditions scl sda tr
      = ((sdaChangesSclHigh scl sda tr).filter fun p => decide (p.1 = 0 ∧ p.2 ≠ 0)).length := by
  induction tr generalizing scl sda with
  | nil => rfl
  | cons e tr ih =>
    cases e with
    | setSda v =>
      simp only [stopConditions, sdaChangesSclHigh, List.filter_append, List.length_append, ih]
      congr 1
      by_cases hs : scl = 0
      · simp [hs]
      · by_cases hd : sda = 0
        · by_cases hv : v = 0
          · simp [hs, hv, hd]
          · simp [hs, hv, hd]
        · by_cases hv : v = sda
          · simp [hs, hv, hd]
          · simp [hs, hv, hd]
    | setScl v => simp only [stopConditions, sdaChangesSclHigh, ih]
    | getScl v => simp only [stopConditions, sdaChangesSclHigh, ih]
    | getSda v => simp only [stopConditions, sdaChangesSclHigh, ih]
    | delay v => simp only [stopConditions, sdaChangesSclHigh, ih]

theorem changes_polls (polls : List Nat) (scl sda : Nat) :
    sdaChangesSclHigh scl sda (polls.map Ev.getScl) = [] ∧
    linesAfter scl sda (polls.map Ev.getScl) = (scl, sda) := by
  induction polls with
  | nil => exact ⟨rfl, rfl⟩
  | cons p polls ih => simpa [sdaChangesSclHigh, linesAfter] using ih

theorem changes_tx_loop (x d sda : Nat) :
    sdaChangesSclHigh 0 sda (tx_loop_events x d) = [] := by
  induction x generalizing d sda with
  | zero => rfl
  | succ x ih =>
    simp only [tx_loop_events, List.cons_append, List.nil_append, sdaChangesSclHigh]
    simpa using ih _ _

theorem changes_tx (d v sda : Nat) :
    sdaChangesSclHigh 0 sda (tx_events d v) = [] ∧ linesAfter 0 sda (tx_events d v) = (0, 1) := by
  refine ⟨?_, (startConditions_tx d v sda).2⟩
  unfold tx_events
  rw [sdaChangesSclHigh_append, changes_tx_loop, (startConditions_tx_loop 8 (d % 256) sda).2]
  simp [sdaChangesSclHigh]

theorem changes_txs (txs : List (Nat × Nat)) (sda : Nat) :
    sdaChangesSclHigh 0 sda (txs_events txs) = [] ∧ (linesAfter 0 sda (txs_events txs)).1 = 0 := by
  induction txs generalizing sda with
  | nil => exact ⟨rfl, rfl⟩
  | cons q txs ih =>
    have e : txs_events (q :: txs) = tx_events q.1 q.2 ++ txs_events txs := by
      simp [txs_events]
    rw [e, sdaChangesSclHigh_append, linesAfter_append, (changes_tx _ _ _).1,
      (changes_tx _ _ _).2]
    exact ⟨by simpa using (ih 1).1, (ih 1).2⟩

theorem changes_rx_bit (polls : List Nat) (s sda : Nat) :
    sdaChangesSclHigh 0 sda (rx_bit_events polls s) = [] ∧
    linesAfter 0 sda (rx_bit_events polls s) = (0, sda) := by
  unfold rx_bit_events
  rw [List.append_assoc, sdaChangesSclHigh_append, linesAfter_append, sdaChangesSclHigh_append,
    linesAfter_append]
  simp [sdaChangesSclHigh, linesAfter, (changes_polls polls 1 sda).1,
    (changes_polls polls 1 sda).2]

theorem changes_rx_bits (bits : List (List Nat × Nat)) (sda : Nat) :
    sdaChangesSclHigh 0 sda (bits.flatMap fun p => rx_bit_events p.1 p.2) = [] ∧
    linesAfter 0 sda (bits.flatMap fun p => rx_bit_events p.1 p.2) = (0, sda) := by
  induction bits with
  | nil => exact ⟨rfl, rfl⟩
  | cons p bits ih =>
    rw [List.flatMap_cons, sdaChangesSclHigh_append, linesAfter_append,
      (changes_rx_bit _ _ _).1, (changes_rx_bit _ _ _).2]
    exact ⟨by simpa using ih.1, ih.2⟩

theorem changes_rx (bits : List (List Nat × Nat)) (ack sda : Nat) :
    sdaChangesSclHigh 0 sda (rx_events bits ack) = [] ∧
    linesAfter 0 sda (rx_events bits ack) = (0, 1) := by
  unfold rx_events
  rw [List.singleton_append]
  simp only [sdaChangesSclHigh, linesAfter]
  rw [sdaChangesSclHigh_append, linesAfter_append, (changes_rx_bits _ _).1,
    (changes_rx_bits _ _).2]
  simp [sdaChangesSclHigh, linesAfter]

theorem changes_rxs (rxs : List (List (List Nat × Nat) × Nat)) (sda : Nat) :
    sdaChangesSclHigh 0 sda (rxs_events rxs) = [] ∧ (linesAfter 0 sda (rxs_events rxs)).1 = 0 := by
  induction rxs generalizing sda with
  | nil => exact ⟨rfl, rfl⟩
  | cons q rxs ih =>
    have e : rxs_events (q :: rxs) = rx_events q.1 q.2 ++ rxs_events rxs := by
      simp [rxs_events]
    rw [e, sdaChangesSclHigh_append, linesAfter_append, (changes_rx _ _ _).1,
      (changes_rx _ _ _).2]
    exact ⟨by simpa using (ih 1).1, (ih 1).2⟩

theorem changes_stop (sda : Nat) :
    sdaChangesSclHigh 0 sda stopEvents = [(0, 1)] ∧ linesAfter 0 sda stopEvents = (1, 1) := by
  simp [stopEvents, sdaChangesSclHigh, linesAfter]

theorem changes_start (scl sda : Nat) :
    sdaChangesSclHigh scl sda startEvents
      = (if scl ≠ 0 ∧ 1 ≠ sda then [(sda, 1)] else []) ++ [(1, 0)] ∧
    linesAfter scl sda startEvents = (0, 0) := by
  simp [startEvents, sdaChangesSclHigh, linesAfter]

theorem changes_transaction (txs : List (Nat × Nat))
    (rxs : List (List (List Nat × Nat) × Nat)) (scl sda : Nat) :
    sdaChangesSclHigh scl sda (transaction_events txs rxs)
      = (if scl ≠ 0 ∧ 1 ≠ sda then [(sda, 1)] else []) ++ [(1, 0), (0, 1)] ∧
    linesAfter scl sda (transaction_events txs rxs) = (1, 1) := by
  have hz : ∀ p : Nat × Nat, p.1 = 0 → sdaChangesSclHigh p.1 p.2 (rxs_events rxs ++ stopEvents)
      = [(0, 1)] ∧ linesAfter p.1 p.2 (rxs_events rxs ++ stopEvents) = (1, 1) := by
    intro p hp
    rw [hp, sdaChangesSclHigh_append, linesAfter_append, (changes_rxs rxs p.2).1]
    have h1 := (changes_rxs rxs p.2).2
    generalize linesAfter 0 p.2 (rxs_events rxs) = q at h1 ⊢
    rw [h1]
    exact ⟨by simpa using (changes_stop q.2).1, (changes_stop q.2).2⟩
  unfold transaction_events
  rw [sdaChangesSclHigh_append, linesAfter_append, (changes_start scl sda).1,
    (changes_start scl sda).2, sdaChangesSclHigh_append, linesAfter_append,
    (changes_txs txs 0).1]
  have h2 := (changes_txs txs 0).2
  obtain ⟨g1, g2⟩ := hz (linesAfter 0 0 (txs_events txs)) h2
  rw [g1, g2]
  simp

/-- **C16** (ordering contract).  Starting from an idle bus (SCL and SDA last
written 1), whenever `i2c_write_buf` (likewise `i2c_read_buf`) returns, the
changes of the written SDA value made while the written SCL value is nonzero
are exactly two: first 1 → 0 (the START condition) and last 0 → 1 (the STOP
condition); every other change of SDA is made while the written SCL value
is 0. -/
theorem ordering_contract (fuel ADR : Nat) (data : List Nat) (len : Int) (b : Bus)
    (hscl : b.scl = 1) (hsda : b.sda = 1) :
    (∀ r, i2c_write_buf ADR data len b = some r →
      sdaChangesSclHigh b.scl b.sda (newEvents b r.2) = [(1, 0), (0, 1)]) ∧
    (∀ r, i2c_read_buf fuel ADR data len b = some r →
      sdaChangesSclHigh b.scl b.sda (newEvents b r.2.2) = [(1, 0), (0, 1)]) := by
  constructor
  · intro r h
    obtain ⟨txs, he⟩ := i2c_write_buf_shape _ _ _ _ _ h
    rw [newEvents_append b _ _ he, (changes_transaction _ _ _ _).1, hscl, hsda]
    simp
  · intro r h
    obtain ⟨txs, rxs, he⟩ := i2c_read_buf_shape _ _ _ _ _ _ h
    rw [newEvents_append b _ _ he, (changes_transaction _ _ _ _).1, hscl, hsda]
    simp

/-- Instance of C16: a two-byte read from an idle bus. -/
theorem ordering_contract_witness :
    ∃ r, i2c_read_buf 1 0xA0 [0, 0] 2 (idleBus (fun _ => 1) (fun _ => 0)) = some r ∧
      sdaChangesSclHigh (idleBus (fun _ => 1) (fun _ => 0)).scl
        (idleBus (fun _ => 1) (fun _ => 0)).sda
        (newEvents (idleBus (fun _ => 1) (fun _ => 0)) r.2.2) = [(1, 0), (0, 1)] :=
  ⟨Option.get _ (by decide), (Option.some_get _).symm,
    (ordering_contract 1 0xA0 [0, 0] 2 (idleBus (fun _ => 1) (fun _ => 0)) rfl rfl).2 _
      (Option.some_get _).symm⟩

/-! ## Composite read as two transactions -/

theorem i2c_write_buf_loop_result (data : List Nat) (n i : Nat) (b : Bus) (r : Nat × Bus)
    (h : i2c_write_buf_loop data n i b = some r) : r.1 = 0 ∨ r.1 = 1 := by
  induction n generalizing i b with
  | zero =>
    simp only [i2c_write_buf_loop, Option.some.injEq] at h
    exact Or.inr (by rw [← h])
  | succ n ih =>
    rw [i2c_write_buf_loop] at h
    split at h
    · exact absurd h (by simp)
    · rename_i v _
      by_cases hr : (i2c_tx v b).1 = 0
      · simp only [hr, if_true, Option.some.injEq] at h
        exact Or.inl (by rw [← h])
      · simp only [hr, if_false] at h
        exact ih _ _ h

theorem i2c_write_buf_result (ADR : Nat) (data : List Nat) (len : Int) (b : Bus)
    (r : Nat × Bus) (h : i2c_write_buf ADR data len b = some r) : r.1 = 0 ∨ r.1 = 1 := by
  unfold i2c_write_buf at h
  by_cases hr : (i2c_tx ADR (i2c_start b)).1 = 0
  · simp only [hr, if_true, Option.some.injEq] at h
    exact Or.inl (by rw [← h])
  · simp only [hr, if_false] at h
    exact i2c_write_buf_loop_result _ _ _ _ _ h

theorem i2c_read_buf_result (fuel ADR : Nat) (data : List Nat) (len : Int) (b : Bus)
    (r : Nat × List Nat × Bus) (h : i2c_read_buf fuel ADR data len b = some r) :
    r.1 = 0 ∨ r.1 = 1 := by
  unfold i2c_read_buf at h
  by_cases hr : (i2c_tx ((ADR % 256) ||| 1) (i2c_start b)).1 = 0
  · simp only [hr, if_true, Option.some.injEq] at h
    exact Or.inl (by rw [← h])
  · simp only [hr, if_false] at h
    exact Or.inr (i2c_read_buf_loop_acks _ _ _ _ _ _ _ h).1

theorem two_transactions_counts (t1 t2 : List (Nat × Nat))
    (rxs : List (List (List Nat × Nat) × Nat)) (scl sda : Nat) :
    startConditions scl sda (transaction_events t1 [] ++ transaction_events t2 rxs) = 2 ∧
    (scl = 0 ∨ sda ≠ 0 →
      stopConditions scl sda (transaction_events t1 [] ++ transaction_events t2 rxs) = 2) := by
  have hch : sdaChangesSclHigh scl sda (transaction_events t1 [] ++ transaction_events t2 rxs)
      = (if scl ≠ 0 ∧ 1 ≠ sda then [(sda, 1)] else []) ++ [(1, 0), (0, 1), (1, 0), (0, 1)] := by
    rw [sdaChangesSclHigh_append, (changes_transaction t1 [] scl sda).1,
      (changes_transaction t1 [] scl sda).2, (changes_transaction t2 rxs 1 1).1]
    simp
  constructor
  · rw [startConditions_eq_changes, hch]
    by_cases hc : scl ≠ 0 ∧ 1 ≠ sda
    · simp [hc]
    · simp [hc]
  · intro hs
    rw [stopConditions_eq_changes, hch]
    by_cases hc : scl ≠ 0 ∧ 1 ≠ sda
    · have hd : sda ≠ 0 := by
        rcases hs with hs | hs
        · exact absurd hs hc.1
        · exact hs
      simp [hc, hd]
    · simp [hc]

/-- **C11** (composite read as two transactions).  Whenever `i2c_read_regs`
returns, its index write `i2c_write_buf(Port, ADR, [reg_nr], 1)` returned; if
that returned 0 the composite call returns 0 with the bus as the index write
left it; otherwise it returned 1 and the composite call is
`i2c_read_buf(Port, ADR, values, len)` run on the bus the index write left, so
the events of the call are those of the index write followed by those of the
read; the composite call returns 1 exactly when both return 1.  On success
the events contain exactly two start conditions and, unless the bus was left
with SCL high and SDA low before the call, exactly two stop conditions.
`i2c_read_reg` is `i2c_read_regs` with `len = 1`. -/
theorem i2c_read_regs_two_transactions (fuel ADR reg_nr : Nat) (values : List Nat)
    (len : Int) (b : Bus) (r : Nat × List Nat × Bus)
    (h : i2c_read_regs fuel ADR reg_nr values len b = some r) :
    (∃ w, i2c_write_buf ADR [reg_nr % 256] 1 b = some w ∧
      (w.1 = 0 → r = (0, values, w.2)) ∧
      (w.1 ≠ 0 → w.1 = 1 ∧ i2c_read_buf fuel ADR values len w.2 = some r ∧
        newEvents b r.2.2 = newEvents b w.2 ++ newEvents w.2 r.2.2) ∧
      (r.1 = 1 ↔ w.1 = 1 ∧ ∃ q, i2c_read_buf fuel ADR values len w.2 = some q ∧ q.1 = 1)) ∧
    (r.1 = 1 → startConditions b.scl b.sda (newEvents b r.2.2) = 2 ∧
      (b.scl = 0 ∨ b.sda ≠ 0 → stopConditions b.scl b.sda (newEvents b r.2.2) = 2)) ∧
    i2c_read_reg fuel ADR reg_nr values b = i2c_read_regs fuel ADR reg_nr values 1 b := by
  refine ⟨?_, ?_, by unfold i2c_read_reg i2c_read_regs; rfl⟩
  · unfold i2c_read_regs at h
    split at h
    · exact absurd h (by simp)
    · rename_i result c hw
      by_cases h0 : result = 0
      · simp only [h0, if_true, Option.some.injEq] at h
        refine ⟨(result, c), hw, fun _ => h.symm, fun hne => absurd h0 hne, ?_⟩
        rw [← h]
        simp [h0]
      · simp only [h0, if_false] at h
        have h1 : result = 1 := by
          rcases i2c_write_buf_result _ _ _ _ _ hw with hx | hx
          · exact absurd hx h0
          · exact hx
        split at h
        · exact absurd h (by simp)
        · rename_i res2 vals c2 hread
          have hr : r = (res2, vals, c2) := by
            rcases i2c_read_buf_result _ _ _ _ _ _ hread with hx | hx
            · simp only at hx
              simp only [hx, if_true, Option.some.injEq] at h
              rw [← h, hx]
            · simp only at hx
              simp only [hx, one_ne_zero, if_false, Option.some.injEq] at h
              rw [← h, hx]
          obtain ⟨t1, e1⟩ := i2c_write_buf_shape _ _ _ _ _ hw
          obtain ⟨t2, rxs, e2⟩ := i2c_read_buf_shape _ _ _ _ _ _ hread
          simp only at e1 e2
          refine ⟨(result, c), hw, fun hz => absurd hz h0, fun _ => ⟨h1, ?_, ?_⟩, ?_⟩
          · rw [hr]; exact hread
          · rw [hr]
            simp only
            rw [newEvents_append b c2 (transaction_events t1 [] ++ transaction_events t2 rxs)
                (by rw [e2, e1, List.append_assoc]),
              newEvents_append b c _ e1, newEvents_append c c2 _ e2]
          · rw [hr]
            simp only
            constructor
            · intro hres
              exact ⟨h1, (res2, vals, c2), hread, hres⟩
            · rintro ⟨-, q, hq, hq1⟩
              rw [hread, Option.some.injEq] at hq
              rw [← hq] at hq1
              exact hq1
  · intro hres
    unfold i2c_read_regs at h
    split at h
    · exact absurd h (by simp)
    · rename_i result c hw
      by_cases h0 : result = 0
      · simp only [h0, if_true, Option.some.injEq] at h
        rw [← h] at hres
        exact absurd hres (by simp)
      · simp only [h0, if_false] at h
        split at h
        · exact absurd h (by simp)
        · rename_i res2 vals c2 hread
          have hc2 : r.2.2 = c2 := by
            split at h <;> (simp only [Option.some.injEq] at h; rw [← h])
          obtain ⟨t1, e1⟩ := i2c_write_buf_shape _ _ _ _ _ hw
          obtain ⟨t2, rxs, e2⟩ := i2c_read_buf_shape _ _ _ _ _ _ hread
          simp only at e1 e2
          rw [hc2, newEvents_append b c2
            (transaction_events t1 [] ++ transaction_events t2 rxs)
            (by rw [e2, e1, List.append_assoc])]
          exact two_transactions_counts t1 t2 rxs b.scl b.sda

/-- Instance of C11: a successful read of two registers from an idle bus. -/
theorem i2c_read_regs_two_transactions_witness :
    ∃ r, i2c_read_regs 1 0xA0 5 [0, 0] 2 (idleBus (fun _ => 1) (fun _ => 0)) = some r ∧
      r.1 = 1 ∧
      startConditions (idleBus (fun _ => 1) (fun _ => 0)).scl
        (idleBus (fun _ => 1) (fun _ => 0)).sda
        (newEvents (idleBus (fun _ => 1) (fun _ => 0)) r.2.2) = 2 ∧
      stopConditions (idleBus (fun _ => 1) (fun _ => 0)).scl
        (idleBus (fun _ => 1) (fun _ => 0)).sda
        (newEvents (idleBus (fun _ => 1) (fun _ => 0)) r.2.2) = 2 :=
  ⟨Option.get _ (by decide), (Option.some_get _).symm, by decide,
    ((i2c_read_regs_two_transactions 1 0xA0 5 [0, 0] 2 (idleBus (fun _ => 1) (fun _ => 0)) _
      (Option.some_get _).symm).2.1 (by decide)).1,
    ((i2c_read_regs_two_transactions 1 0xA0 5 [0, 0] 2 (idleBus (fun _ => 1) (fun _ => 0)) _
      (Option.some_get _).symm).2.1 (by decide)).2 (Or.inr (by decide))⟩

/-! ## Guard interval -/

theorem sclSpaced_append (xs ys : List Ev) (ok : Bool) :
    sclSpaced ok (xs ++ ys) = (sclSpaced ok xs && sclSpaced (delayedAfter ok xs) ys) := by
  induction xs generalizing ok with
  | nil => simp [sclSpaced, delayedAfter]
  | cons e xs ih =>
    rw [List.cons_append]
    cases e <;> simp only [sclSpaced, delayedAfter] <;> rw [ih]
    rw [Bool.and_assoc]

theorem delayedAfter_append (xs ys : List Ev) (ok : Bool) :
    delayedAfter ok (xs ++ ys) = delayedAfter (delayedAfter ok xs) ys := by
  induction xs generalizing ok with
  | nil => simp [delayedAfter]
  | cons e xs ih =>
    rw [List.cons_append]
    cases e <;> simp only [delayedAfter] <;> rw [ih]

theorem spaced_polls (polls : List Nat) (ok : Bool) :
    sclSpaced ok (polls.map Ev.getScl) = true ∧ delayedAfter ok (polls.map Ev.getScl) = ok := by
  induction polls with
  | nil => exact ⟨rfl, rfl⟩
  | cons p polls ih => simpa [sclSpaced, delayedAfter] using ih

theorem spaced_start (ok : Bool) :
    sclSpaced ok startEvents = true ∧ delayedAfter ok startEvents = true := by
  cases ok <;> exact ⟨rfl, rfl⟩

theorem spaced_stop (ok : Bool) :
    sclSpaced ok stopEvents = true ∧ delayedAfter ok stopEvents = true := by
  cases ok <;> exact ⟨rfl, rfl⟩

theorem spaced_tx_loop (x d : Nat) (ok : Bool) : sclSpaced ok (tx_loop_events x d) = true := by
  induction x generalizing d ok with
  | zero => rfl
  | succ x ih =>
    simp only [tx_loop_events, List.cons_append, List.nil_append, sclSpaced]
    simpa using ih _ false

theorem spaced_tx (d v : Nat) (ok : Bool) :
    sclSpaced ok (tx_events d v) = true ∧ delayedAfter ok (tx_events d v) = true := by
  unfold tx_events
  rw [sclSpaced_append, delayedAfter_append, spaced_tx_loop]
  generalize delayedAfter ok (tx_loop_events 8 (d % 256)) = o
  cases o <;> exact ⟨rfl, rfl⟩

theorem spaced_txs (txs : List (Nat × Nat)) :
    (∀ ok, sclSpaced ok (txs_events txs) = true) ∧ delayedAfter true (txs_events txs) = true := by
  induction txs with
  | nil => exact ⟨fun _ => rfl, rfl⟩
  | cons q txs ih =>
    have e : txs_events (q :: txs) = tx_events q.1 q.2 ++ txs_events txs := by
      simp [txs_events]
    rw [e]
    refine ⟨fun ok => ?_, ?_⟩
    · rw [sclSpaced_append, (spaced_tx _ _ _).1, ih.1]
      rfl
    · rw [delayedAfter_append, (spaced_tx _ _ _).2, ih.2]

theorem spaced_rx_bit (polls : List Nat) (s : Nat) :
    sclSpaced true (rx_bit_events polls s) = true ∧
    delayedAfter true (rx_bit_events polls s) = true := by
  unfold rx_bit_events
  rw [List.append_assoc, sclSpaced_append, delayedAfter_append, sclSpaced_append,
    delayedAfter_append]
  simp [sclSpaced, delayedAfter, (spaced_polls polls true).1, (spaced_polls polls true).2]

theorem spaced_rx_bits (bits : List (List Nat × Nat)) :
    sclSpaced true (bits.flatMap fun p => rx_bit_events p.1 p.2) = true ∧
    delayedAfter true (bits.flatMap fun p => rx_bit_events p.1 p.2) = true := by
  induction bits with
  | nil => exact ⟨rfl, rfl⟩
  | cons p bits ih =>
    rw [List.flatMap_cons, sclSpaced_append, delayedAfter_append, (spaced_rx_bit _ _).1,
      (spaced_rx_bit _ _).2, ih.1, ih.2]
    exact ⟨rfl, rfl⟩

theorem spaced_rx (bits : List (List Nat × Nat)) (ack : Nat) :
    sclSpaced true (rx_events bits ack) = true ∧ delayedAfter true (rx_events bits ack) = true := by
  unfold rx_events
  rw [List.singleton_append]
  simp only [sclSpaced, delayedAfter]
  rw [sclSpaced_append, delayedAfter_append, (spaced_rx_bits _).1, (spaced_rx_bits _).2]
  exact ⟨rfl, rfl⟩

theorem spaced_rxs (rxs : List (List (List Nat × Nat) × Nat)) :
    sclSpaced true (rxs_events rxs) = true ∧ delayedAfter true (rxs_events rxs) = true := by
  induction rxs with
  | nil => exact ⟨rfl, rfl⟩
  | cons q rxs ih =>
    have e : rxs_events (q :: rxs) = rx_events q.1 q.2 ++ rxs_events rxs := by
      simp [rxs_events]
    rw [e, sclSpaced_append, delayedAfter_append, (spaced_rx _ _).1, (spaced_rx _ _).2,
      ih.1, ih.2]
    exact ⟨rfl, rfl⟩

theorem spaced_transaction (txs : List (Nat × Nat))
    (rxs : List (List (List Nat × Nat) × Nat)) (ok : Bool) :
    sclSpaced ok (transaction_events txs rxs) = true ∧
    delayedAfter ok (transaction_events txs rxs) = true := by
  unfold transaction_events
  rw [sclSpaced_append, delayedAfter_append, (spaced_start ok).1, (spaced_start ok).2,
    sclSpaced_append, delayedAfter_append, (spaced_txs txs).1, (spaced_txs txs).2,
    sclSpaced_append, delayedAfter_append, (spaced_rxs rxs).1, (spaced_rxs rxs).2,
    (spaced_stop true).1, (spaced_stop true).2]
  exact ⟨rfl, rfl⟩

theorem i2c_read_regs_shape (fuel ADR reg_nr : Nat) (values : List Nat) (len : Int)
    (b : Bus) (r : Nat × List Nat × Bus)
    (h : i2c_read_regs fuel ADR reg_nr values len b = some r) :
    (∃ t1, r.2.2.trace = b.trace ++ transaction_events t1 []) ∨
    (∃ t1 t2 rxs, r.2.2.trace
      = b.trace ++ (transaction_events t1 [] ++ transaction_events t2 rxs)) := by
  unfold i2c_read_regs at h
  split at h
  · exact absurd h (by simp)
  · rename_i result c hw
    obtain ⟨t1, e1⟩ := i2c_write_buf_shape _ _ _ _ _ hw
    simp only at e1
    by_cases h0 : result = 0
    · simp only [h0, if_true, Option.some.injEq] at h
      exact Or.inl ⟨t1, by rw [← h]; exact e1⟩
    · simp only [h0, if_false] at h
      split at h
      · exact absurd h (by simp)
      · rename_i res2 vals c2 hread
        obtain ⟨t2, rxs, e2⟩ := i2c_read_buf_shape _ _ _ _ _ _ hread
        simp only at e2
        have hc2 : r.2.2 = c2 := by
          split at h <;> (simp only [Option.some.injEq] at h; rw [← h])
        exact Or.inr ⟨t1, t2, rxs, by rw [hc2, e2, e1, List.append_assoc]⟩

theorem spaced_of_shapes (b c : Bus)
    (h : (∃ t1 rxs, c.trace = b.trace ++ transaction_events t1 rxs) ∨
      (∃ t1 t2 rxs, c.trace = b.trace ++ (transaction_events t1 [] ++ transaction_events t2 rxs))) :
    sclSpaced true (newEvents b c) = true := by
  rcases h with ⟨t1, rxs, e⟩ | ⟨t1, t2, rxs, e⟩
  · rw [newEvents_append b c _ e]
    exact (spaced_transaction _ _ _).1
  · rw [newEvents_append b c _ e, sclSpaced_append, (spaced_transaction _ _ _).1,
      (spaced_transaction _ _ _).2, (spaced_transaction _ _ _).1]
    rfl

/-- **C19**, as the code has it.  In the events of every operation (`i2c_init`,
`i2c_start`, `i2c_stop`, `i2c_tx`, `i2c_rx` and the eight public operations),
any two consecutive writes to SCL are separated by at least one delay of
5 microseconds. -/
theorem scl_writes_spaced (fuel : Nat) (b : Bus) :
    sclSpaced true (newEvents b (i2c_init b)) = true ∧
    sclSpaced true (newEvents b (i2c_start b)) = true ∧
    sclSpaced true (newEvents b (i2c_stop b)) = true ∧
    (∀ d, sclSpaced true (newEvents b (i2c_tx d b).2) = true) ∧
    (∀ ack r, i2c_rx fuel ack b = some r → sclSpaced true (newEvents b r.2) = true) ∧
    (∀ (op : Call) (c : Bus), op.run fuel b = some c →
      sclSpaced true (newEvents b c) = true) := by
  refine ⟨?_, ?_, ?_, ?_, ?_, ?_⟩
  · rw [newEvents_append b _ _ (i2c_init_trace b)]
    rfl
  · rw [newEvents_append b _ _ (i2c_start_trace b)]
    exact (spaced_start true).1
  · rw [newEvents_append b _ _ (i2c_stop_trace b)]
    exact (spaced_stop true).1
  · intro d
    rw [newEvents_append b _ _ (i2c_tx_trace d b)]
    exact (spaced_tx _ _ true).1
  · intro ack r h
    obtain ⟨bits, -, e⟩ := i2c_rx_shape _ _ _ _ h
    rw [newEvents_append b _ _ e]
    exact (spaced_rx _ _).1
  · intro op c h
    cases op with
    | op_init =>
      simp only [Call.run, Option.some.injEq] at h
      rw [← h, newEvents_append b _ _ (i2c_init_trace b)]
      rfl
    | op_write_buf ADR data len =>
      simp only [Call.run, Option.map_eq_some'] at h
      obtain ⟨r, hr, rfl⟩ := h
      obtain ⟨t1, e⟩ := i2c_write_buf_shape _ _ _ _ _ hr
      exact spaced_of_shapes b _ (Or.inl ⟨t1, [], e⟩)
    | op_read_buf ADR data len =>
      simp only [Call.run, Option.map_eq_some'] at h
      obtain ⟨r, hr, rfl⟩ := h
      obtain ⟨t1, rxs, e⟩ := i2c_read_buf_shape _ _ _ _ _ _ hr
      exact spaced_of_shapes b _ (Or.inl ⟨t1, rxs, e⟩)
    | op_write_reg_nr ADR reg_nr =>
      simp only [Call.run, Option.map_eq_some', i2c_write_reg_nr] at h
      obtain ⟨r, hr, rfl⟩ := h
      obtain ⟨t1, e⟩ := i2c_write_buf_shape _ _ _ _ _ hr
      exact spaced_of_shapes b _ (Or.inl ⟨t1, [], e⟩)
    | op_write_reg ADR reg_nr value =>
      simp only [Call.run, Option.map_eq_some', i2c_write_reg] at h
      obtain ⟨r, hr, rfl⟩ := h
      obtain ⟨t1, e⟩ := i2c_write_buf_shape _ _ _ _ _ hr
      exact spaced_of_shapes b _ (Or.inl ⟨t1, [], e⟩)
    | op_write_regs ADR reg_nr values len =>
      simp only [Call.run, Option.map_eq_some'] at h
      obtain ⟨r, hr, rfl⟩ := h
      obtain ⟨t1, e⟩ := i2c_write_regs_shape _ _ _ _ _ _ hr
      exact spaced_of_shapes b _ (Or.inl ⟨t1, [], e⟩)
    | op_read_reg ADR reg_nr value =>
      simp only [Call.run, Option.map_eq_some'] at h
      obtain ⟨r, hr, rfl⟩ := h
      have hr2 : i2c_read_regs fuel ADR reg_nr value 1 b = some r := by
        rw [← hr]; unfold i2c_read_reg i2c_read_regs; rfl
      rcases i2c_read_regs_shape _ _ _ _ _ _ _ hr2 with ⟨t1, e⟩ | ⟨t1, t2, rxs, e⟩
      · exact spaced_of_shapes b _ (Or.inl ⟨t1, [], e⟩)
      · exact spaced_of_shapes b _ (Or.inr ⟨t1, t2, rxs, e⟩)
    | op_read_regs ADR reg_nr values len =>
      simp only [Call.run, Option.map_eq_some'] at h
      obtain ⟨r, hr, rfl⟩ := h
      rcases i2c_read_regs_shape _ _ _ _ _ _ _ hr with ⟨t1, e⟩ | ⟨t1, t2, rxs, e⟩
      · exact spaced_of_shapes b _ (Or.inl ⟨t1, [], e⟩)
      · exact spaced_of_shapes b _ (Or.inr ⟨t1, t2, rxs, e⟩)

/-- Instance of C19 as the code has it: a register read with a stretched
clock. -/
theorem scl_writes_spaced_witness :
    ∃ c, (Call.op_read_reg 0xA0 5 [0]).run 3
        (idleBus (fun k => if k % 2 = 0 then 0 else 1) (fun _ => 0)) = some c ∧
      sclSpaced true
        (newEvents (idleBus (fun k => if k % 2 = 0 then 0 else 1) (fun _ => 0)) c) = true :=
  ⟨Option.get _ (by decide), (Option.some_get _).symm,
    (scl_writes_spaced 3 (idleBus (fun k => if k % 2 = 0 then 0 else 1) (fun _ => 0))).2.2.2.2.2
      _ _ (Option.some_get _).symm⟩

/-- **C19** as stated fails for `i2c_init`: it writes SDA=1 and then SCL=1
with no delay in between, so a line write is immediately followed by another
line write. -/
theorem i2c_init_adjacent_writes :
    newEvents (idleBus (fun _ => 1) (fun _ => 1)) (i2c_init (idleBus (fun _ => 1) (fun _ => 1)))
      = [Ev.setSda 1, Ev.setScl 1, Ev.delay 5] ∧
    adjacentWrites (newEvents (idleBus (fun _ => 1) (fun _ => 1))
      (i2c_init (idleBus (fun _ => 1) (fun _ => 1)))) = true :=
  ⟨by decide, by decide⟩

end I2c
